import Mathlib

/-!
# Verification of the `tenzi_sim` repository

Shallow embedding of the repository's Rust sources, followed by theorems
settling the specification claims.

Sources embedded:
* `src/mode.rs`       — mode engine (`mode_from_counts`, `top_two_modes_from_counts`, `anti_modes`)
* `src/rand.rs`       — die source (`roll`)
* `src/simulation.rs` — histogram strategy state machines (Naive / Divide / Merge)
* `src/main.rs`       — earlier per-die-array simulation plus `sim` and `monte_carlo`

Machine integers (`type Num = usize`) are modelled as `Nat`; histograms as
`List Nat`.  Die-source outputs are supplied by an explicit oracle
`ω : Nat → Nat` of raw generator words; a cursor in the state records how many
words have been consumed (modelling the generator's internal state
advancement).  Rust code that panics (`unwrap`, out-of-bounds indexing,
`unimplemented!`) is modelled with `Except`/default values as noted at each
definition.
-/

namespace TenziSim

/-- `l.getD j 0` shorthand used throughout: the `j`-th count of a histogram
(0 when out of range; all verified accesses are in range). -/
def gd (l : List Nat) (j : Nat) : Nat := l.getD j 0

/-! ## `src/mode.rs` -/

/-- Loop of `mode_from_counts`: Rust's
`counts.iter().enumerate().max_by_key(|&(_, &count)| count)`.
`max_by_key` returns the **last** maximal element, hence the accumulator is
replaced whenever the new count is `≥` the current best.
State: `bi` = best index so far, `bc` = best count so far, `i` = next index. -/
def modeGo (bi bc i : Nat) : List Nat → Nat × Nat
  | [] => (bi, bc)
  | c :: rest => if bc ≤ c then modeGo i c (i + 1) rest else modeGo bi bc (i + 1) rest

/-- `mode_from_counts(counts)`: 1-based index of the (last) maximum count.
The source `.unwrap()`s and so panics on an empty slice; the model returns 0
there (all verified calls pass a non-empty histogram). -/
def modeFromCounts (counts : List Nat) : Nat :=
  match counts with
  | [] => 0
  | c :: rest => (modeGo 0 c 1 rest).1 + 1

/-- Loop of `top_two_modes_from_counts`: one pass keeping
`(first, first_index, second, second_index)`, updating with strict
comparisons exactly as the source does. -/
def topTwoGo (first fi second si i : Nat) : List Nat → Nat × Nat × Nat × Nat
  | [] => (first, fi, second, si)
  | c :: rest =>
    if c > first then topTwoGo c i first fi (i + 1) rest
    else if c > second then topTwoGo first fi c i (i + 1) rest
    else topTwoGo first fi second si (i + 1) rest

/-- `top_two_modes_from_counts(counts)`: the pair of 1-based indices kept by
the one-pass scan, initialised with `first = counts[0]`, `second = 0`.
The source indexes `counts[0]` and so panics on an empty slice; the model
returns `(1, 1)` there (the precondition is `S ≥ 2`). -/
def topTwoModesFromCounts (counts : List Nat) : Nat × Nat :=
  match counts with
  | [] => (1, 1)
  | c :: rest =>
    let r := topTwoGo c 0 0 0 1 rest
    (r.2.1 + 1, r.2.2.2 + 1)

/-- `anti_modes(counts)`: 1-based indices of the buckets the Merge strategy
re-rolls.  Mirrors the source:
* `mode_count` is the count at `mode_from_counts`;
* one pass over the nonzero counts collects their number, their minimum
  (the source folds with sentinel `usize::MAX`; the model folds the nonzero
  list from its head, which is the same minimum and is only consulted when
  that list is non-empty), and how many of them equal `mode_count`;
* then the three result branches exactly as in the source. -/
def antiModes (counts : List Nat) : List Nat :=
  let mode := modeFromCounts counts
  let modeCount := gd counts (mode - 1)
  let nz := counts.filter (fun v => decide (0 < v))
  let nonzeroCount := nz.length
  let modeCountOccurrences := (nz.filter (fun v => decide (v = modeCount))).length
  if nonzeroCount ≤ 1 then []
  else if modeCountOccurrences = nonzeroCount then
    match counts.findIdx? (fun v => decide (0 < v)) with
    | some k => [k + 1]
    | none => []
  else
    let minNonzero := nz.foldl min (nz.headD 0)
    (counts.enum.filterMap (fun p => if p.2 = minNonzero then some (p.1 + 1) else none))

/-! ## `src/rand.rs` -/

/-- `roll(num_sides)` applied to one raw generator word `w`:
`1 + (get_num() % num_sides)`. -/
def rollFace (numSides w : Nat) : Nat := 1 + w % numSides

/-! ## `src/simulation.rs`

One state record serves all three strategies.  In the source each strategy
has its own struct with the same fields; only `NaiveSimulation` additionally
carries the `mode: Option<Num>` cache, which the other two strategies never
touch.  `cursor` records how many oracle words have been consumed. -/

structure SimState where
  buckets   : List Nat
  numDice   : Nat
  numSides  : Nat
  numToRoll : Nat
  numRolls  : Nat
  numSteps  : Nat
  modeMemo  : Option Nat
  done      : Bool
  cursor    : Nat
deriving Repr, DecidableEq

/-- `XSimulation::new(num_sides, num_dice)` (identical for the three
strategies): all-zero buckets, `num_to_roll = num_dice`. -/
def SimState.init (numSides numDice : Nat) : SimState :=
  { buckets := List.replicate numSides 0
    numDice := numDice
    numSides := numSides
    numToRoll := numDice
    numRolls := 0
    numSteps := 0
    modeMemo := none
    done := false
    cursor := 0 }

/-- `buckets[roll - 1] += 1` (the verified runs keep the index in range). -/
def incAt (l : List Nat) (i : Nat) : List Nat := l.set i (gd l i + 1)

/-- One iteration of the body of `Strategy::roll`: draw a word, increment
the face's bucket, count the roll, advance the generator. -/
def rollOnce (ω : Nat → Nat) (st : SimState) : SimState :=
  let face := rollFace st.numSides (ω st.cursor)
  { st with
      buckets := incAt st.buckets (face - 1)
      numRolls := st.numRolls + 1
      cursor := st.cursor + 1 }

/-- `Strategy::roll`: `num_to_roll` independent die rolls. -/
def rollPhase (ω : Nat → Nat) (st : SimState) : SimState :=
  (rollOnce ω)^[st.numToRoll] st

/-- Indexed pass of the zeroing loops: `k` is the index of the head of the
remaining list, `keep` decides which indices survive. -/
def zeroNotKeptGo (keep : Nat → Bool) (k : Nat) : List Nat → List Nat
  | [] => []
  | v :: t => (if keep k then v else 0) :: zeroNotKeptGo keep (k + 1) t

/-- Zero every bucket except index `m`
(`for k in 0..len { if k != mode_bucket { buckets[k] = 0 } }`). -/
def zeroExcept (l : List Nat) (m : Nat) : List Nat :=
  zeroNotKeptGo (fun k => decide (k = m)) 0 l

/-- Zero every bucket except indices `a` and `b`
(`if k != mode1_bucket && k != mode2_bucket { buckets[k] = 0 }`). -/
def zeroExceptTwo (l : List Nat) (a b : Nat) : List Nat :=
  zeroNotKeptGo (fun k => decide (k = a ∨ k = b)) 0 l

/-- `<NaiveSimulation as Strategy>::step`. -/
def naiveStep (ω : Nat → Nat) (st : SimState) : SimState :=
  let st1 := rollPhase ω st
  let mode := st1.modeMemo.getD (modeFromCounts st1.buckets)
  let modeBucket := mode - 1
  let buckets2 := zeroExcept st1.buckets modeBucket
  let st2 := { st1 with buckets := buckets2, modeMemo := some mode }
  if gd buckets2 modeBucket = st2.numDice then
    { st2 with done := true, numSteps := st2.numSteps + 1 }
  else
    { st2 with numToRoll := st2.numDice - gd buckets2 modeBucket
               numSteps := st2.numSteps + 1 }

/-- `<DivideSimulation as Strategy>::step`. -/
def divideStep (ω : Nat → Nat) (st : SimState) : SimState :=
  let st1 := rollPhase ω st
  let modes := topTwoModesFromCounts st1.buckets
  let pair :=
    if gd st1.buckets (modes.1 - 1) ≥ st1.numDice / 2 then (modes.1 - 1, modes.1 - 1)
    else (modes.1 - 1, modes.2 - 1)
  let buckets2 := zeroExceptTwo st1.buckets pair.1 pair.2
  let numToKeep := buckets2.sum
  let st2 := { st1 with buckets := buckets2 }
  if numToKeep = st2.numDice then
    { st2 with done := true, numSteps := st2.numSteps + 1 }
  else
    { st2 with numToRoll := st2.numDice - numToKeep, numSteps := st2.numSteps + 1 }

/-- `<MergeSimulation as Strategy>::step`. -/
def mergeStep (ω : Nat → Nat) (st : SimState) : SimState :=
  let st1 := rollPhase ω st
  let am := antiModes st1.buckets
  let buckets2 := am.foldl (fun bs k => bs.set (k - 1) 0) st1.buckets
  let numToKeep := buckets2.sum
  let st2 := { st1 with buckets := buckets2 }
  if numToKeep = st2.numDice then
    { st2 with done := true, numSteps := st2.numSteps + 1 }
  else
    { st2 with numToRoll := st2.numDice - numToKeep, numSteps := st2.numSteps + 1 }

/-- The three re-roll policies of `SimulationType`. -/
inductive Strat
  | naive
  | divide
  | merge
deriving Repr, DecidableEq

/-- Dispatch to the strategy's `step` (which itself begins with `roll()`). -/
def stepOf : Strat → (Nat → Nat) → SimState → SimState
  | .naive => naiveStep
  | .divide => divideStep
  | .merge => mergeStep

/-- One iteration of the trial loop `while !sim.done() { sim.step(); }`:
a step is only taken while the trial is not done. -/
def guardedStep (strat : Strat) (ω : Nat → Nat) (st : SimState) : SimState :=
  if st.done then st else stepOf strat ω st

/-- The trial state after `n` rounds of the trial loop, starting from the
fresh state. -/
def trialIter (strat : Strat) (ω : Nat → Nat) (numSides numDice n : Nat) : SimState :=
  (guardedStep strat ω)^[n] (SimState.init numSides numDice)

/-! ## `src/main.rs`

The binary's own (earlier, per-die-array) simulation: `NaiveSimulation`
stores one value per die (0 = to be re-rolled); `DivideSimulation` and
`MergeSimulation` are unit structs whose every trait method is
`unimplemented!()`.  `sim` runs the trial loop and returns the roll count;
`monte_carlo` aggregates over independent trials. -/

/-- `mutated_serial_mode(dice)` after the initial `dice.sort_unstable()`:
run-length scan of the sorted array.  `mode` is replaced only on a strictly
greater run length.  The source indexes `dice[0]` and so panics on an empty
array; the model returns 0 there (the binary always has `dice ≥ 1`). -/
def mutatedSerialModeSorted (sorted : List Nat) : Nat :=
  match sorted with
  | [] => 0
  | d :: rest =>
    let r := rest.foldl
      (fun (acc : Nat × Nat × Nat × Nat) dk =>
        let (mode, modeCount, current, currentCount) := acc
        if dk = current then (mode, modeCount, current, currentCount + 1)
        else if currentCount > modeCount then (current, currentCount, dk, 1)
        else (mode, modeCount, dk, 1))
      (d, 1, d, 1)
    if r.2.2.2 > r.2.1 then r.2.2.1 else r.1

/-- Insertion step of `sortAsc`. -/
def insertAsc (x : Nat) : List Nat → List Nat
  | [] => [x]
  | y :: t => if x ≤ y then x :: y :: t else y :: insertAsc x t

/-- Ascending sort, modelling `dice.sort_unstable()`: the ascending
reordering of a list of machine integers is unique, so the choice of
sorting algorithm is immaterial. -/
def sortAsc : List Nat → List Nat
  | [] => []
  | x :: t => insertAsc x (sortAsc t)

/-- `mutated_serial_mode(&mut dice)`: sorts, then scans.  The sorted array is
returned as well because the source mutates `self.dice` in place. -/
def mutatedSerialMode (dice : List Nat) : List Nat × Nat :=
  let sorted := sortAsc dice
  (sorted, mutatedSerialModeSorted sorted)

/-- State of `main.rs`'s `NaiveSimulation`: one entry per die
(0 = unlocked / to re-roll). -/
structure MainNaiveState where
  dice : List Nat
  numSides : Nat
  modeMemo : Option Nat
  done : Bool
  cursor : Nat
deriving Repr, DecidableEq

/-- `NaiveSimulation::new(num_sides, num_dice)` of `main.rs`. -/
def MainNaiveState.init (numSides numDice : Nat) : MainNaiveState :=
  { dice := List.replicate numDice 0
    numSides := numSides
    modeMemo := none
    done := false
    cursor := 0 }

/-- Loop of `Simulation::roll` in `main.rs`: re-roll each die that is 0,
left to right, counting the rolls made.  Returns
(new dice, rolls made, new cursor). -/
def mainRollDice (ω : Nat → Nat) (numSides : Nat) :
    List Nat → Nat → List Nat × Nat × Nat
  | [], c => ([], 0, c)
  | d :: rest, c =>
    if d = 0 then
      let face := rollFace numSides (ω c)
      let r := mainRollDice ω numSides rest (c + 1)
      (face :: r.1, r.2.1 + 1, r.2.2)
    else
      let r := mainRollDice ω numSides rest c
      (d :: r.1, r.2.1, r.2.2)

/-- `Simulation::roll` for `main.rs`'s `NaiveSimulation`; returns the state
and the number of rolls performed. -/
def mainNaiveRoll (ω : Nat → Nat) (st : MainNaiveState) : MainNaiveState × Nat :=
  let r := mainRollDice ω st.numSides st.dice st.cursor
  ({ st with dice := r.1, cursor := r.2.2 }, r.2.1)

/-- `<NaiveSimulation as Strategy>::step` of `main.rs` (serial, non-simd
path): compute-and-cache the mode via `mutated_serial_mode` (which sorts
`self.dice` in place) on the first step; zero every die not equal to the
mode; `done` iff no die was zeroed. -/
def mainNaiveStep (st : MainNaiveState) : MainNaiveState :=
  let dm : List Nat × Nat :=
    match st.modeMemo with
    | some m => (st.dice, m)
    | none => mutatedSerialMode st.dice
  let dice1 := dm.1
  let mode := dm.2
  let dice2 := dice1.map (fun r => if r ≠ mode then 0 else r)
  let done := dice1.all (fun r => decide (r = mode))
  { st with dice := dice2, modeMemo := some mode, done := done }

/-- `SimulationType` of `main.rs`: Divide and Merge carry no state
(unit structs). -/
inductive MainSimType
  | naive (st : MainNaiveState)
  | divide
  | merge
deriving Repr, DecidableEq

/-- How a modelled run of `main.rs` can fail to produce a value. -/
inductive RunError
  | unimplementedPanic
  | outOfFuel
deriving Repr, DecidableEq

/-- `Tracked::done` through `SimulationType` dispatch: `unimplemented!()`
panics for Divide and Merge. -/
def mainDone : MainSimType → Except RunError Bool
  | .naive st => .ok st.done
  | .divide => .error .unimplementedPanic
  | .merge => .error .unimplementedPanic

/-- `Simulation::roll` through dispatch; the default body calls
`self.dice()`, which is `unimplemented!()` for Divide and Merge. -/
def mainRoll (ω : Nat → Nat) : MainSimType → Except RunError (MainSimType × Nat)
  | .naive st => .ok (.naive (mainNaiveRoll ω st).1, (mainNaiveRoll ω st).2)
  | .divide => .error .unimplementedPanic
  | .merge => .error .unimplementedPanic

/-- `Strategy::step` through dispatch. -/
def mainStep : MainSimType → Except RunError MainSimType
  | .naive st => .ok (.naive (mainNaiveStep st))
  | .divide => .error .unimplementedPanic
  | .merge => .error .unimplementedPanic

/-- The loop of `sim`: `while !strategy.done() { num_rolls += roll(); step() }`.
`fuel` bounds the number of loop iterations the model will unfold (the
source loop is unbounded); the `done` test is evaluated before the fuel is
consulted, exactly as the loop condition is evaluated on entry.  Returns
`(num_rolls, loop iterations)`; the iteration count is observer
instrumentation (the source tracks only `num_rolls`). -/
def mainSimLoop (ω : Nat → Nat) (st : MainSimType) (acc steps fuel : Nat) :
    Except RunError (Nat × Nat) := do
  let d ← mainDone st
  if d then pure (acc, steps)
  else
    match fuel with
    | 0 => .error .outOfFuel
    | fuel + 1 => do
      let r ← mainRoll ω st
      let st2 ← mainStep r.1
      mainSimLoop ω st2 (acc + r.2) (steps + 1) fuel

/-- `sim(simulation_type)`: number of rolls of one trial (paired with the
instrumented iteration count). -/
def mainSim (ω : Nat → Nat) (st : MainSimType) (fuel : Nat) :
    Except RunError (Nat × Nat) :=
  mainSimLoop ω st 0 0 fuel

/-- Output of `monte_carlo`.  The source stores
`std_dev = variance.sqrt()` (f64) and the wall-clock `duration`; the model
keeps the rational `variance` (`std_dev` is a function of it alone) and does
not model wall-clock time. -/
structure MainMCOutput where
  average : ℚ
  variance : ℚ
deriving Repr, DecidableEq

/-- The two running totals of `monte_carlo`
(`total_rolls`, `total_squared_rolls`), accumulated per trial.  The source
adds them with relaxed atomic `fetch_add` from parallel trials and reads
them after the join; the model folds the trials in index order (addition is
commutative, and each trial is independent, with its own stream `ω i`). -/
def mainMonteCarloTotals (ω : Nat → Nat → Nat) (strat : MainSimType)
    (numSims fuel : Nat) : Except RunError (Nat × Nat) :=
  (List.range numSims).foldlM
    (fun acc i => do
      let r ← mainSim (ω i) strat fuel
      pure (acc.1 + r.1, acc.2 + r.1 * r.1))
    (0, 0)

/-- `monte_carlo(strategy_type, num_simulations)`:
`average = total_rolls / N`, `variance = total_squared_rolls / N − average²`
(the square root and duration are not part of the model, see
`MainMCOutput`).  Every trial starts from a clone of the same strategy
value. -/
def mainMonteCarlo (ω : Nat → Nat → Nat) (strat : MainSimType)
    (numSims fuel : Nat) : Except RunError MainMCOutput := do
  let t ← mainMonteCarloTotals ω strat numSims fuel
  let average : ℚ := (t.1 : ℚ) / (numSims : ℚ)
  let variance : ℚ := (t.2 : ℚ) / (numSims : ℚ) - average * average
  pure { average := average, variance := variance }

/-- The variance expression of `monte_carlo` as a function of the loaded
totals and the trial count, exactly as on the source line
`let variance = (total_squared_rolls as Float) / (num_simulations as Float)
- (average * average as Float)` — there is no clamping of this value before
`let std_dev = (variance as Float).sqrt()`. -/
def mainVarianceOfTotals (total totalSq n : Nat) : ℚ :=
  (totalSq : ℚ) / (n : ℚ) - ((total : ℚ) / (n : ℚ)) * ((total : ℚ) / (n : ℚ))

/-! ## Basic histogram lemmas -/

theorem gd_nil (j : Nat) : gd [] j = 0 := rfl

theorem gd_cons_zero (a : Nat) (l : List Nat) : gd (a :: l) 0 = a := rfl

theorem gd_cons_succ (a : Nat) (l : List Nat) (j : Nat) : gd (a :: l) (j + 1) = gd l j := rfl

theorem gd_le_sum : ∀ (l : List Nat) (j : Nat), gd l j ≤ l.sum := by
  intro l
  induction l with
  | nil => intro j; simp [gd_nil]
  | cons a t ih =>
    intro j
    cases j with
    | zero => simp [gd_cons_zero, List.sum_cons]
    | succ j' =>
      have := ih j'
      simp only [gd_cons_succ, List.sum_cons]
      omega

theorem gd_eq_zero_of_len_le : ∀ (l : List Nat) (j : Nat), l.length ≤ j → gd l j = 0 := by
  intro l
  induction l with
  | nil => intro j _; rfl
  | cons a t ih =>
    intro j hj
    cases j with
    | zero => simp at hj
    | succ j' =>
      rw [gd_cons_succ]
      exact ih j' (by simpa using hj)

theorem drop_cons_facts :
    ∀ (counts : List Nat) (i : Nat) (c : Nat) (rest : List Nat),
      counts.drop i = c :: rest →
      gd counts i = c ∧ counts.drop (i + 1) = rest ∧ i < counts.length := by
  intro counts
  induction counts with
  | nil => intro i c rest h; simp at h
  | cons a t ih =>
    intro i c rest h
    cases i with
    | zero =>
      simp only [List.drop_zero] at h
      cases h
      exact ⟨rfl, by simp, by simp⟩
    | succ i' =>
      have h' : t.drop i' = c :: rest := by simpa using h
      obtain ⟨h1, h2, h3⟩ := ih i' c rest h'
      refine ⟨by simpa [gd_cons_succ] using h1, by simpa using h2, by simpa using h3⟩

theorem drop_nil_len : ∀ (counts : List Nat) (i : Nat), counts.drop i = [] → counts.length ≤ i := by
  intro counts i h
  have := congrArg List.length h
  simp at this
  omega

/-! ## `mode_from_counts` invariant (mode index is the last argmax) -/

theorem modeGo_spec :
    ∀ (l counts : List Nat) (bi bc i : Nat),
      i ≤ counts.length →
      counts.drop i = l →
      bi < i →
      gd counts bi = bc →
      (∀ j, j < i → gd counts j ≤ bc) →
      (∀ j, bi < j → j < i → gd counts j < bc) →
      (modeGo bi bc i l).1 < counts.length ∧
      gd counts (modeGo bi bc i l).1 = (modeGo bi bc i l).2 ∧
      (∀ j, j < counts.length → gd counts j ≤ (modeGo bi bc i l).2) ∧
      (∀ j, (modeGo bi bc i l).1 < j → j < counts.length →
        gd counts j < (modeGo bi bc i l).2) := by
  intro l
  induction l with
  | nil =>
    intro counts bi bc i hi hdrop hbi hgd hle hlast
    have hlen : counts.length ≤ i := drop_nil_len counts i hdrop
    have hieq : i = counts.length := le_antisymm hi hlen
    subst hieq
    simp only [modeGo]
    exact ⟨by omega, hgd, hle, fun j h1 h2 => hlast j h1 h2⟩
  | cons c rest ih =>
    intro counts bi bc i hi hdrop hbi hgd hle hlast
    obtain ⟨hci, hdrop', hilen⟩ := drop_cons_facts counts i c rest hdrop
    simp only [modeGo]
    by_cases hbc : bc ≤ c
    · rw [if_pos hbc]
      apply ih counts i c (i + 1) (by omega) hdrop' (by omega) hci
      · intro j hj
        rcases Nat.lt_succ_iff_lt_or_eq.mp hj with h | h
        · exact le_trans (hle j h) hbc
        · subst h; rw [hci]
      · intro j h1 h2; omega
    · rw [if_neg hbc]
      apply ih counts bi bc (i + 1) (by omega) hdrop' (by omega) hgd
      · intro j hj
        rcases Nat.lt_succ_iff_lt_or_eq.mp hj with h | h
        · exact hle j h
        · subst h; rw [hci]; omega
      · intro j h1 h2
        rcases Nat.lt_succ_iff_lt_or_eq.mp h2 with h | h
        · exact hlast j h1 h
        · subst h; rw [hci]; omega

/-- The characterisation of `mode_from_counts` on a non-empty histogram:
it returns `p + 1` where `p` carries a maximal count and every later index
carries a strictly smaller count (the "last max wins" tie-break of Rust's
`max_by_key`). -/
theorem modeFromCounts_spec (counts : List Nat) (h : counts ≠ []) :
    1 ≤ modeFromCounts counts ∧
    modeFromCounts counts ≤ counts.length ∧
    (∀ j, j < counts.length → gd counts j ≤ gd counts (modeFromCounts counts - 1)) ∧
    (∀ j, modeFromCounts counts - 1 < j → j < counts.length →
      gd counts j < gd counts (modeFromCounts counts - 1)) := by
  match counts, h with
  | c :: rest, _ =>
    have hs := modeGo_spec rest (c :: rest) 0 c 1 (by simp) (by simp) (by omega) rfl
      (by intro j hj; interval_cases j; rfl)
      (by intro j h1 h2; omega)
    obtain ⟨h1, h2, h3, h4⟩ := hs
    have hm : modeFromCounts (c :: rest) = (modeGo 0 c 1 rest).1 + 1 := rfl
    constructor
    · rw [hm]; omega
    constructor
    · rw [hm]; omega
    constructor
    · intro j hj
      rw [hm]
      simpa [h2] using h3 j hj
    · intro j hj1 hj2
      rw [hm] at hj1 ⊢
      have : (modeGo 0 c 1 rest).1 < j := by omega
      simpa [h2] using h4 j this hj2

/-- Claim C7: for every non-empty histogram `counts`, `mode_from_counts`
returns the 1-based index of a maximum count, and when several indices
achieve the maximum it returns the last such index (every strictly later
index has a strictly smaller count). -/
theorem mode_from_counts_returns_last_max (counts : List Nat) (h : counts ≠ []) :
    1 ≤ modeFromCounts counts ∧
    modeFromCounts counts ≤ counts.length ∧
    (∀ j, j < counts.length → gd counts j ≤ gd counts (modeFromCounts counts - 1)) ∧
    (∀ j, modeFromCounts counts - 1 < j → j < counts.length →
      gd counts j < gd counts (modeFromCounts counts - 1)) :=
  modeFromCounts_spec counts h

/-- Witness for C7 at the spec's own example `[1,2,3,4,2,3,1,1]`
(and implicitly that the returned index is 4). -/
theorem mode_from_counts_returns_last_max_witness :
    ([1,2,3,4,2,3,1,1] : List Nat) ≠ [] ∧
    modeFromCounts [1,2,3,4,2,3,1,1] = 4 ∧
    1 ≤ modeFromCounts [1,2,3,4,2,3,1,1] :=
  ⟨by decide, by decide,
    (mode_from_counts_returns_last_max [1,2,3,4,2,3,1,1] (by decide)).1⟩

/-! ## `top_two_modes_from_counts` invariant -/

theorem topTwoGo_spec :
    ∀ (l counts : List Nat) (first fi second si i : Nat),
      i ≤ counts.length →
      counts.drop i = l →
      fi < i →
      si < i →
      gd counts fi = first →
      (∀ j, j < i → gd counts j ≤ first) →
      (∀ j, j < fi → gd counts j < first) →
      (∀ j, j < i → j ≠ fi → gd counts j ≤ second) →
      ((second = 0 ∧ si = 0) ∨
        (si ≠ fi ∧ gd counts si = second ∧
          ∀ j, j < si → j ≠ fi → gd counts j < second)) →
      (topTwoGo first fi second si i l).2.1 < counts.length ∧
      (topTwoGo first fi second si i l).2.2.2 < counts.length ∧
      gd counts (topTwoGo first fi second si i l).2.1 =
        (topTwoGo first fi second si i l).1 ∧
      (∀ j, j < counts.length → gd counts j ≤ (topTwoGo first fi second si i l).1) ∧
      (∀ j, j < (topTwoGo first fi second si i l).2.1 →
        gd counts j < (topTwoGo first fi second si i l).1) ∧
      (∀ j, j < counts.length → j ≠ (topTwoGo first fi second si i l).2.1 →
        gd counts j ≤ (topTwoGo first fi second si i l).2.2.1) ∧
      (((topTwoGo first fi second si i l).2.2.1 = 0 ∧
          (topTwoGo first fi second si i l).2.2.2 = 0) ∨
        ((topTwoGo first fi second si i l).2.2.2 ≠ (topTwoGo first fi second si i l).2.1 ∧
          gd counts (topTwoGo first fi second si i l).2.2.2 =
            (topTwoGo first fi second si i l).2.2.1 ∧
          ∀ j, j < (topTwoGo first fi second si i l).2.2.2 →
            j ≠ (topTwoGo first fi second si i l).2.1 →
            gd counts j < (topTwoGo first fi second si i l).2.2.1)) := by
  intro l
  induction l with
  | nil =>
    intro counts first fi second si i hi hdrop hfi hsi hgdf hlef hltf hles hdisj
    have hlen : counts.length ≤ i := drop_nil_len counts i hdrop
    have hieq : i = counts.length := le_antisymm hi hlen
    subst hieq
    simp only [topTwoGo]
    exact ⟨hfi, hsi, hgdf, hlef, hltf, hles, hdisj⟩
  | cons c rest ih =>
    intro counts first fi second si i hi hdrop hfi hsi hgdf hlef hltf hles hdisj
    obtain ⟨hci, hdrop', hilen⟩ := drop_cons_facts counts i c rest hdrop
    simp only [topTwoGo]
    by_cases h1 : c > first
    · rw [if_pos h1]
      apply ih counts c i first fi (i + 1) (by omega) hdrop' (by omega) (by omega) hci
      · intro j hj
        rcases Nat.lt_succ_iff_lt_or_eq.mp hj with h | h
        · exact le_trans (hlef j h) (le_of_lt h1)
        · subst h; rw [hci]
      · intro j hj
        exact lt_of_le_of_lt (hlef j hj) h1
      · intro j hj hne
        have hj' : j < i := by omega
        exact hlef j hj'
      · right
        refine ⟨by omega, hgdf, ?_⟩
        intro j hj hne
        exact hltf j hj
    · rw [if_neg h1]
      by_cases h2 : c > second
      · rw [if_pos h2]
        apply ih counts first fi c i (i + 1) (by omega) hdrop' (by omega) (by omega) hgdf
        · intro j hj
          rcases Nat.lt_succ_iff_lt_or_eq.mp hj with h | h
          · exact hlef j h
          · subst h; rw [hci]; omega
        · exact hltf
        · intro j hj hne
          rcases Nat.lt_succ_iff_lt_or_eq.mp hj with h | h
          · exact le_trans (hles j h hne) (le_of_lt h2)
          · subst h; rw [hci]
        · right
          refine ⟨by omega, hci, ?_⟩
          intro j hj hne
          exact lt_of_le_of_lt (hles j (by omega) hne) h2
      · rw [if_neg h2]
        apply ih counts first fi second si (i + 1) (by omega) hdrop' (by omega) (by omega) hgdf
        · intro j hj
          rcases Nat.lt_succ_iff_lt_or_eq.mp hj with h | h
          · exact hlef j h
          · subst h; rw [hci]; omega
        · exact hltf
        · intro j hj hne
          rcases Nat.lt_succ_iff_lt_or_eq.mp hj with h | h
          · exact hles j h hne
          · subst h; rw [hci]; omega
        · exact hdisj

theorem filter_pos_eq_nil :
    ∀ (l : List Nat), (∀ j, j < l.length → gd l j = 0) →
      l.filter (fun v => decide (0 < v)) = [] := by
  intro l
  induction l with
  | nil => intro _; rfl
  | cons a t ih =>
    intro h
    have ha : a = 0 := h 0 (by simp)
    have ht : ∀ j, j < t.length → gd t j = 0 := by
      intro j hj
      have := h (j + 1) (by simp; omega)
      simpa [gd_cons_succ] using this
    simp [List.filter_cons, ha, ih ht]

theorem filter_pos_len_le_one :
    ∀ (l : List Nat) (p : Nat),
      (∀ j, j < l.length → j ≠ p → gd l j = 0) →
      (l.filter (fun v => decide (0 < v))).length ≤ 1 := by
  intro l
  induction l with
  | nil => intro p _; simp
  | cons a t ih =>
    intro p h
    cases p with
    | zero =>
      have ht : ∀ j, j < t.length → gd t j = 0 := by
        intro j hj
        have := h (j + 1) (by simp; omega) (by omega)
        simpa [gd_cons_succ] using this
      rw [List.filter_cons, filter_pos_eq_nil t ht]
      by_cases ha : 0 < a <;> simp [ha]
    | succ p' =>
      have ha : a = 0 := h 0 (by simp) (by omega)
      have ht : ∀ j, j < t.length → j ≠ p' → gd t j = 0 := by
        intro j hj hne
        have := h (j + 1) (by simp; omega) (by omega)
        simpa [gd_cons_succ] using this
      rw [List.filter_cons, ha]
      simpa using ih p' ht

/-- Claim C1 (counterexample): on the spec's own example the function does
not return `(4, 6)`; equal second-best counts resolve to the earlier index,
giving `(4, 3)` (this is also what the repository's own unit test expects). -/
theorem top_two_modes_claim_false :
    topTwoModesFromCounts [1,2,3,4,2,3,1,1] ≠ (4, 6) := by decide

/-- Claim C1 (amended): for every histogram with at least two positive
counts, `top_two_modes_from_counts` returns 1-based indices `(p+1, s+1)` of
the two highest counts, largest first, and on equal counts the LOWER
original index is preferred for both the primary and the secondary position
(`p` is the earliest argmax; `s` is the earliest argmax among the remaining
indices); in particular
`top_two_modes_from_counts([1,2,3,4,2,3,1,1]) = (4, 3)`. -/
theorem top_two_modes_amended (counts : List Nat)
    (h2 : 2 ≤ (counts.filter (fun v => decide (0 < v))).length) :
    ((topTwoModesFromCounts counts).1 - 1 < counts.length ∧
     (topTwoModesFromCounts counts).2 - 1 < counts.length ∧
     (topTwoModesFromCounts counts).1 - 1 ≠ (topTwoModesFromCounts counts).2 - 1 ∧
     1 ≤ (topTwoModesFromCounts counts).1 ∧ 1 ≤ (topTwoModesFromCounts counts).2 ∧
     gd counts ((topTwoModesFromCounts counts).2 - 1) ≤
       gd counts ((topTwoModesFromCounts counts).1 - 1) ∧
     (∀ j, j < counts.length →
       gd counts j ≤ gd counts ((topTwoModesFromCounts counts).1 - 1)) ∧
     (∀ j, j < (topTwoModesFromCounts counts).1 - 1 →
       gd counts j < gd counts ((topTwoModesFromCounts counts).1 - 1)) ∧
     (∀ j, j < counts.length → j ≠ (topTwoModesFromCounts counts).1 - 1 →
       gd counts j ≤ gd counts ((topTwoModesFromCounts counts).2 - 1)) ∧
     (∀ j, j < (topTwoModesFromCounts counts).2 - 1 →
       j ≠ (topTwoModesFromCounts counts).1 - 1 →
       gd counts j < gd counts ((topTwoModesFromCounts counts).2 - 1))) ∧
    topTwoModesFromCounts [1,2,3,4,2,3,1,1] = (4, 3) := by
  refine ⟨?_, by decide⟩
  match counts, h2 with
  | c :: rest, h2 =>
    have hs := topTwoGo_spec rest (c :: rest) c 0 0 0 1 (by simp) (by simp)
      (by omega) (by omega) rfl
      (by intro j hj; interval_cases j; rfl)
      (by intro j hj; omega)
      (by intro j hj hne; omega)
      (Or.inl ⟨rfl, rfl⟩)
    set r := topTwoGo c 0 0 0 1 rest with hr
    obtain ⟨hfl, hsl, hgdf, hlef, hltf, hles, hdisj⟩ := hs
    have hclaim : topTwoModesFromCounts (c :: rest) = (r.2.1 + 1, r.2.2.2 + 1) := rfl
    rcases hdisj with ⟨hz, _⟩ | ⟨hne, hgds, hlts⟩
    · exfalso
      have hconc : ∀ j, j < (c :: rest).length → j ≠ r.2.1 → gd (c :: rest) j = 0 := by
        intro j hj hne
        have := hles j hj hne
        omega
      have := filter_pos_len_le_one (c :: rest) r.2.1 hconc
      omega
    · rw [hclaim]
      refine ⟨by simpa using hfl, by simpa using hsl,
        by simp only [Nat.add_sub_cancel]; exact fun h => hne h.symm,
        by omega, by omega, ?_, ?_, ?_, ?_, ?_⟩
      · simp only [Nat.add_sub_cancel]
        rw [hgds, hgdf]
        have := hlef r.2.2.2 hsl
        rw [hgds] at this
        exact this
      · intro j hj
        simp only [Nat.add_sub_cancel]
        rw [hgdf]
        exact hlef j hj
      · intro j hj
        simp only [Nat.add_sub_cancel] at hj ⊢
        rw [hgdf]
        exact hltf j hj
      · intro j hj hne'
        simp only [Nat.add_sub_cancel] at hne' ⊢
        rw [hgds]
        exact hles j hj hne'
      · intro j hj hne'
        simp only [Nat.add_sub_cancel] at hj hne' ⊢
        rw [hgds]
        exact hlts j hj hne'

/-- Witness for the amended C1 at the spec's example. -/
theorem top_two_modes_amended_witness :
    2 ≤ (([1,2,3,4,2,3,1,1] : List Nat).filter (fun v => decide (0 < v))).length ∧
    topTwoModesFromCounts [1,2,3,4,2,3,1,1] = (4, 3) :=
  ⟨by decide, (top_two_modes_amended [1,2,3,4,2,3,1,1] (by decide)).2⟩

/-! ## `anti_modes` support lemmas -/

theorem gd_eq_getElem (l : List Nat) (j : Nat) (h : j < l.length) : gd l j = l[j] :=
  List.getD_eq_getElem l 0 h

theorem gd_mem (l : List Nat) (j : Nat) (h : j < l.length) : gd l j ∈ l := by
  rw [gd_eq_getElem l j h]
  exact List.getElem_mem h

theorem mem_gd (l : List Nat) (v : Nat) (h : v ∈ l) :
    ∃ j, j < l.length ∧ gd l j = v := by
  obtain ⟨n, hn, hv⟩ := List.mem_iff_getElem.mp h
  exact ⟨n, hn, by rw [gd_eq_getElem l n hn]; exact hv⟩

theorem mem_filter_pos (counts : List Nat) (v : Nat) :
    v ∈ counts.filter (fun v => decide (0 < v)) ↔ v ∈ counts ∧ 0 < v := by
  rw [List.mem_filter]
  simp

theorem one_pos_le_filter_len (l : List Nat) (j : Nat) (hj : j < l.length)
    (hpos : 0 < gd l j) : 1 ≤ (l.filter (fun v => decide (0 < v))).length := by
  have hm : gd l j ∈ l.filter (fun v => decide (0 < v)) :=
    (mem_filter_pos l (gd l j)).mpr ⟨gd_mem l j hj, hpos⟩
  cases hfe : l.filter (fun v => decide (0 < v)) with
  | nil => rw [hfe] at hm; simp at hm
  | cons a t => simp

theorem two_pos_le_filter_len :
    ∀ (l : List Nat) (j j' : Nat), j < j' → j' < l.length →
      0 < gd l j → 0 < gd l j' →
      2 ≤ (l.filter (fun v => decide (0 < v))).length := by
  intro l
  induction l with
  | nil => intro j j' _ h; simp at h
  | cons a t ih =>
    intro j j' hjj hj' hpj hpj'
    cases j with
    | zero =>
      have ha : 0 < a := hpj
      obtain ⟨j'', rfl⟩ : ∃ j'', j' = j'' + 1 := ⟨j' - 1, by omega⟩
      have ht : 1 ≤ (t.filter (fun v => decide (0 < v))).length :=
        one_pos_le_filter_len t j'' (by simpa using hj') (by simpa [gd_cons_succ] using hpj')
      rw [List.filter_cons]
      simp only [decide_eq_true_eq, ha, if_pos, List.length_cons]
      omega
    | succ j0 =>
      obtain ⟨j'', rfl⟩ : ∃ j'', j' = j'' + 1 := ⟨j' - 1, by omega⟩
      have := ih j0 j'' (by omega) (by simpa using hj')
        (by simpa [gd_cons_succ] using hpj) (by simpa [gd_cons_succ] using hpj')
      rw [List.filter_cons]
      by_cases ha : 0 < a <;> simp [ha] <;> omega

theorem foldl_min_le_init : ∀ (l : List Nat) (a : Nat), l.foldl min a ≤ a := by
  intro l
  induction l with
  | nil => intro a; simp
  | cons x t ih =>
    intro a
    rw [List.foldl_cons]
    exact le_trans (ih (min a x)) (min_le_left a x)

theorem foldl_min_le_mem : ∀ (l : List Nat) (a u : Nat), u ∈ l → l.foldl min a ≤ u := by
  intro l
  induction l with
  | nil => intro a u h; simp at h
  | cons x t ih =>
    intro a u h
    rw [List.foldl_cons]
    rcases List.mem_cons.mp h with h | h
    · subst h
      exact le_trans (foldl_min_le_init t (min a u)) (min_le_right a u)
    · exact ih (min a x) u h

theorem foldl_min_mem_or : ∀ (l : List Nat) (a : Nat), l.foldl min a = a ∨ l.foldl min a ∈ l := by
  intro l
  induction l with
  | nil => intro a; left; rfl
  | cons x t ih =>
    intro a
    rw [List.foldl_cons]
    rcases ih (min a x) with h | h
    · rcases Nat.le_total a x with hax | hax
      · left; rw [h]; exact Nat.min_eq_left hax
      · right
        rw [h, Nat.min_eq_right hax]
        exact List.mem_cons_self x t
    · right; exact List.mem_cons_of_mem x h

theorem findIdx?_first_pos :
    ∀ (l : List Nat) (k off : Nat), k < l.length → 0 < gd l k →
      (∀ j, j < k → gd l j = 0) →
      l.findIdx? (fun v => decide (0 < v)) off = some (off + k) := by
  intro l
  induction l with
  | nil => intro k off h; simp at h
  | cons a t ih =>
    intro k off hk hpos hfirst
    cases k with
    | zero =>
      rw [List.findIdx?_cons]
      have ha : 0 < a := hpos
      simp [ha]
    | succ k' =>
      have ha : a = 0 := hfirst 0 (by omega)
      rw [List.findIdx?_cons]
      have := ih k' (off + 1) (by simpa using hk) (by simpa [gd_cons_succ] using hpos)
        (fun j hj => by
          have := hfirst (j + 1) (by omega)
          simpa [gd_cons_succ] using this)
      simp only [ha, decide_eq_true_eq]
      rw [if_neg (by omega)]
      rw [this]
      congr 1
      omega

theorem antiModes_eq_nil (counts : List Nat)
    (h : (counts.filter (fun v => decide (0 < v))).length ≤ 1) :
    antiModes counts = [] := by
  simp only [antiModes]
  rw [if_pos h]

theorem antiModes_eq_singleton (counts : List Nat) (k : Nat)
    (hk : k < counts.length) (hkpos : 0 < gd counts k)
    (hkfirst : ∀ j, j < k → gd counts j = 0)
    (hall : ∀ j j', j < counts.length → j' < counts.length →
      0 < gd counts j → 0 < gd counts j' → gd counts j = gd counts j')
    (h2 : 2 ≤ (counts.filter (fun v => decide (0 < v))).length) :
    antiModes counts = [k + 1] := by
  have hne : counts ≠ [] := by
    intro h; subst h; simp at hk
  obtain ⟨hm1, hm2, hmax, _⟩ := modeFromCounts_spec counts hne
  have hmb : modeFromCounts counts - 1 < counts.length := by omega
  have hmcpos : 0 < gd counts (modeFromCounts counts - 1) :=
    lt_of_lt_of_le hkpos (hmax k hk)
  have hallnz : ∀ v ∈ counts.filter (fun v => decide (0 < v)),
      (fun v => decide (v = gd counts (modeFromCounts counts - 1))) v = true := by
    intro v hv
    obtain ⟨hvc, hvpos⟩ := (mem_filter_pos counts v).mp hv
    obtain ⟨j, hj, hgd⟩ := mem_gd counts v hvc
    simp only [decide_eq_true_eq]
    rw [← hgd]
    exact hall j (modeFromCounts counts - 1) hj hmb (by omega) hmcpos
  have hocc :
      ((counts.filter (fun v => decide (0 < v))).filter
        (fun v => decide (v = gd counts (modeFromCounts counts - 1)))).length =
      (counts.filter (fun v => decide (0 < v))).length := by
    rw [List.filter_eq_self.mpr hallnz]
  simp only [antiModes]
  rw [if_neg (by omega), if_pos hocc,
    findIdx?_first_pos counts k 0 hk hkpos hkfirst]
  simp

theorem antiModes_mem_iff (counts : List Nat)
    (hdiff : ∃ j j', j < counts.length ∧ j' < counts.length ∧
      0 < gd counts j ∧ 0 < gd counts j' ∧ gd counts j ≠ gd counts j') :
    ∀ m, m ∈ antiModes counts ↔
      ∃ j, j < counts.length ∧ m = j + 1 ∧ 0 < gd counts j ∧
        ∀ j', j' < counts.length → 0 < gd counts j' → gd counts j ≤ gd counts j' := by
  obtain ⟨a, b, ha, hb, hpa, hpb, hab⟩ := hdiff
  have hne : counts ≠ [] := by
    intro h; subst h; simp at ha
  obtain ⟨hm1, hm2, hmax, _⟩ := modeFromCounts_spec counts hne
  have hmb : modeFromCounts counts - 1 < counts.length := by omega
  have hane : a ≠ b := by
    intro hcontra
    exact hab (by rw [hcontra])
  -- at least two nonzero entries
  have h2 : 2 ≤ (counts.filter (fun v => decide (0 < v))).length := by
    rcases Nat.lt_or_ge a b with h | h
    · exact two_pos_le_filter_len counts a b h hb hpa hpb
    · have hba : b < a := by omega
      exact two_pos_le_filter_len counts b a hba ha hpb hpa
  -- some nonzero entry differs from the mode count
  have hsmall : ∃ v ∈ counts.filter (fun v => decide (0 < v)),
      v ≠ gd counts (modeFromCounts counts - 1) := by
    rcases Nat.lt_or_ge (gd counts a) (gd counts b) with h | h
    · exact ⟨gd counts a, (mem_filter_pos counts _).mpr ⟨gd_mem counts a ha, hpa⟩,
        by have := hmax b hb; omega⟩
    · have : gd counts b < gd counts a := by omega
      exact ⟨gd counts b, (mem_filter_pos counts _).mpr ⟨gd_mem counts b hb, hpb⟩,
        by have := hmax a ha; omega⟩
  have hocc :
      ((counts.filter (fun v => decide (0 < v))).filter
        (fun v => decide (v = gd counts (modeFromCounts counts - 1)))).length ≠
      (counts.filter (fun v => decide (0 < v))).length := by
    obtain ⟨v, hv, hvne⟩ := hsmall
    have : ((counts.filter (fun v => decide (0 < v))).filter
        (fun v => decide (v = gd counts (modeFromCounts counts - 1)))).length <
        (counts.filter (fun v => decide (0 < v))).length := by
      apply List.length_filter_lt_length_iff_exists.mpr
      exact ⟨v, hv, by simpa using hvne⟩
    omega
  intro m
  simp only [antiModes]
  rw [if_neg (by omega), if_neg hocc]
  rw [List.mem_filterMap]
  -- the nonzero list and its minimum
  set nzl := counts.filter (fun v => decide (0 < v)) with hnzl
  have hnzne : nzl ≠ [] := by
    intro h; rw [h] at h2; simp at h2
  have hminmem : nzl.foldl min (nzl.headD 0) ∈ nzl := by
    cases hc : nzl with
    | nil => exact absurd hc hnzne
    | cons v0 t =>
      rcases foldl_min_mem_or (v0 :: t) ((v0 :: t).headD 0) with h | h
      · rw [h]; simp
      · exact h
  have hminle : ∀ u ∈ nzl, nzl.foldl min (nzl.headD 0) ≤ u :=
    fun u hu => foldl_min_le_mem nzl (nzl.headD 0) u hu
  have hminpos : 0 < nzl.foldl min (nzl.headD 0) :=
    ((mem_filter_pos counts _).mp hminmem).2
  constructor
  · rintro ⟨⟨i, v⟩, hmem, hf⟩
    have hiv : counts[i]? = some v := List.mk_mem_enum_iff_getElem?.mp hmem
    obtain ⟨hilen, hival⟩ := List.getElem?_eq_some.mp hiv
    have hgdi : gd counts i = v := by rw [gd_eq_getElem counts i hilen]; exact hival
    by_cases hvm : v = nzl.foldl min (nzl.headD 0)
    · rw [if_pos hvm] at hf
      simp only [Option.some.injEq] at hf
      refine ⟨i, hilen, hf.symm, ?_, ?_⟩
      · rw [hgdi, hvm]; exact hminpos
      · intro j' hj' hpj'
        rw [hgdi, hvm]
        exact hminle (gd counts j') ((mem_filter_pos counts _).mpr ⟨gd_mem counts j' hj', hpj'⟩)
    · simp only [if_neg hvm] at hf
      exact absurd hf (by simp)
  · rintro ⟨j, hj, hmval, hpj, hjle⟩
    refine ⟨(j, gd counts j), ?_, ?_⟩
    · apply List.mk_mem_enum_iff_getElem?.mpr
      rw [List.getElem?_eq_getElem hj, gd_eq_getElem counts j hj]
    · have hjmin : gd counts j = nzl.foldl min (nzl.headD 0) := by
        obtain ⟨jm, hjm, hjmgd⟩ :=
          mem_gd counts (nzl.foldl min (nzl.headD 0))
            ((mem_filter_pos counts _).mp hminmem).1
        have h1 : gd counts j ≤ nzl.foldl min (nzl.headD 0) := by
          rw [← hjmgd]
          exact hjle jm hjm (by rw [hjmgd]; exact hminpos)
        have h2' : nzl.foldl min (nzl.headD 0) ≤ gd counts j :=
          hminle (gd counts j) ((mem_filter_pos counts _).mpr ⟨gd_mem counts j hj, hpj⟩)
        omega
      rw [if_pos hjmin]
      simp only [Option.some.injEq]
      omega

/-- Claim C8: `anti_modes` returns the empty set when at most one bucket is
nonzero; when at least two buckets are nonzero and all nonzero buckets carry
the same count, the singleton holding the first nonzero index; and otherwise
exactly the 1-based indices whose count is a minimum nonzero count — with the
spec's three examples. -/
theorem anti_modes_spec (counts : List Nat) (hne : counts ≠ []) :
    (((counts.filter (fun v => decide (0 < v))).length ≤ 1) → antiModes counts = []) ∧
    (∀ k, k < counts.length → 0 < gd counts k → (∀ j, j < k → gd counts j = 0) →
      (∀ j j', j < counts.length → j' < counts.length →
        0 < gd counts j → 0 < gd counts j' → gd counts j = gd counts j') →
      2 ≤ (counts.filter (fun v => decide (0 < v))).length →
      antiModes counts = [k + 1]) ∧
    ((∃ j j', j < counts.length ∧ j' < counts.length ∧
        0 < gd counts j ∧ 0 < gd counts j' ∧ gd counts j ≠ gd counts j') →
      ∀ m, m ∈ antiModes counts ↔
        ∃ j, j < counts.length ∧ m = j + 1 ∧ 0 < gd counts j ∧
          ∀ j', j' < counts.length → 0 < gd counts j' → gd counts j ≤ gd counts j') ∧
    antiModes [3,1,1,0,2,2,1] = [2,3,7] ∧
    antiModes [0,0,10,0,0,0,0] = [] ∧
    antiModes [0,0,10,10,0,0,0] = [3] := by
  refine ⟨antiModes_eq_nil counts,
    fun k hk hp hf hall h2 => antiModes_eq_singleton counts k hk hp hf hall h2,
    antiModes_mem_iff counts, by decide, by decide, by decide⟩

/-- Witness for C8 at the spec's worked example. -/
theorem anti_modes_spec_witness :
    ([3,1,1,0,2,2,1] : List Nat) ≠ [] ∧ antiModes [3,1,1,0,2,2,1] = [2,3,7] :=
  ⟨by decide, (anti_modes_spec [3,1,1,0,2,2,1] (by decide)).2.2.2.1⟩

/-! ## Die source (`roll`) -/

/-- Claim C9 (amended): for every `num_sides ≥ 1` and every raw generator
word, `roll` returns a face value in the closed range `[1, num_sides]`.
(The distribution is NOT uniform in general, see `roll_not_uniform`.) -/
theorem roll_face_range (numSides w : Nat) (h : 1 ≤ numSides) :
    1 ≤ rollFace numSides w ∧ rollFace numSides w ≤ numSides := by
  unfold rollFace
  have := Nat.mod_lt w (show 0 < numSides by omega)
  omega

/-- Witness for the amended C9 at `num_sides = 6`, word 27. -/
theorem roll_face_range_witness :
    1 ≤ (6 : Nat) ∧ 1 ≤ rollFace 6 27 ∧ rollFace 6 27 ≤ 6 :=
  ⟨by decide, (roll_face_range 6 27 (by decide)).1, (roll_face_range 6 27 (by decide)).2⟩

theorem card_face_one (N : Nat) :
    ((Finset.range N).filter (fun w => rollFace 3 w = 1)).card = (N + 2) / 3 := by
  induction N with
  | zero => simp
  | succ n ih =>
    rw [Finset.range_succ, Finset.filter_insert]
    by_cases h : rollFace 3 n = 1
    · rw [if_pos h, Finset.card_insert_of_not_mem (by simp), ih]
      unfold rollFace at h
      omega
    · rw [if_neg h, ih]
      unfold rollFace at h
      omega

theorem card_face_two (N : Nat) :
    ((Finset.range N).filter (fun w => rollFace 3 w = 2)).card = (N + 1) / 3 := by
  induction N with
  | zero => simp
  | succ n ih =>
    rw [Finset.range_succ, Finset.filter_insert]
    by_cases h : rollFace 3 n = 2
    · rw [if_pos h, Finset.card_insert_of_not_mem (by simp), ih]
      unfold rollFace at h
      omega
    · rw [if_neg h, ih]
      unfold rollFace at h
      omega

/-- Claim C9 (counterexample): for a generator uniform over the 64-bit
machine word, `roll(3) = 1 + (word % 3)` is NOT uniform over `[1, 3]`:
since `2^64 % 3 = 1`, face 1 is hit by strictly more words than face 2
(modulo bias). -/
theorem roll_not_uniform :
    ((Finset.range (2 ^ 64)).filter (fun w => rollFace 3 w = 1)).card ≠
    ((Finset.range (2 ^ 64)).filter (fun w => rollFace 3 w = 2)).card := by
  rw [card_face_one, card_face_two]
  have h : (2 : Nat) ^ 64 = 18446744073709551616 := by norm_num
  rw [h]
  omega

/-! ## Bucket-update lemmas -/

theorem sum_set_zero_le : ∀ (l : List Nat) (k : Nat), (l.set k 0).sum ≤ l.sum := by
  intro l
  induction l with
  | nil => intro k; simp
  | cons a t ih =>
    intro k
    cases k with
    | zero => simp [List.set]
    | succ k' =>
      simp only [List.set, List.sum_cons]
      have := ih k'
      omega

theorem length_foldl_set_zero :
    ∀ (am l : List Nat), (am.foldl (fun bs k => bs.set (k - 1) 0) l).length = l.length := by
  intro am
  induction am with
  | nil => intro l; rfl
  | cons a t ih =>
    intro l
    rw [List.foldl_cons, ih]
    exact List.length_set l (a - 1) 0

theorem sum_foldl_set_zero_le :
    ∀ (am l : List Nat), (am.foldl (fun bs k => bs.set (k - 1) 0) l).sum ≤ l.sum := by
  intro am
  induction am with
  | nil => intro l; exact le_refl _
  | cons a t ih =>
    intro l
    rw [List.foldl_cons]
    exact le_trans (ih (l.set (a - 1) 0)) (sum_set_zero_le l (a - 1))

theorem gd_incAt_ge : ∀ (l : List Nat) (i j : Nat), gd l j ≤ gd (incAt l i) j := by
  intro l
  induction l with
  | nil => intro i j; simp [incAt]
  | cons a t ih =>
    intro i j
    cases i with
    | zero =>
      cases j with
      | zero => simp [incAt, List.set, gd_cons_zero]
      | succ j' => simp [incAt, List.set, gd_cons_succ]
    | succ i' =>
      cases j with
      | zero => simp [incAt, List.set, gd_cons_zero]
      | succ j' =>
        have h : incAt (a :: t) (i' + 1) = a :: incAt t i' := by
          simp [incAt, List.set, gd_cons_succ]
        rw [h, gd_cons_succ, gd_cons_succ]
        exact ih i' j'

theorem length_incAt (l : List Nat) (i : Nat) : (incAt l i).length = l.length :=
  List.length_set l i (gd l i + 1)

theorem sum_incAt_le : ∀ (l : List Nat) (i : Nat), (incAt l i).sum ≤ l.sum + 1 := by
  intro l
  induction l with
  | nil => intro i; simp [incAt]
  | cons a t ih =>
    intro i
    cases i with
    | zero =>
      simp only [incAt, List.set, gd_cons_zero, List.sum_cons]
      omega
    | succ i' =>
      have h : incAt (a :: t) (i' + 1) = a :: incAt t i' := by
        simp [incAt, List.set, gd_cons_succ]
      rw [h, List.sum_cons, List.sum_cons]
      have := ih i'
      omega

theorem length_zeroNotKeptGo :
    ∀ (l : List Nat) (keep : Nat → Bool) (k : Nat),
      (zeroNotKeptGo keep k l).length = l.length := by
  intro l
  induction l with
  | nil => intro keep k; rfl
  | cons a t ih =>
    intro keep k
    simp [zeroNotKeptGo, ih]

theorem sum_zeroNotKeptGo_le :
    ∀ (l : List Nat) (keep : Nat → Bool) (k : Nat),
      (zeroNotKeptGo keep k l).sum ≤ l.sum := by
  intro l
  induction l with
  | nil => intro keep k; simp [zeroNotKeptGo]
  | cons a t ih =>
    intro keep k
    simp only [zeroNotKeptGo, List.sum_cons]
    have h1 : (if keep k then a else 0) ≤ a := by
      by_cases h : keep k <;> simp [h]
    have := ih keep (k + 1)
    omega

theorem gd_zeroNotKeptGo :
    ∀ (l : List Nat) (keep : Nat → Bool) (k j : Nat),
      gd (zeroNotKeptGo keep k l) j = if keep (k + j) then gd l j else 0 := by
  intro l
  induction l with
  | nil =>
    intro keep k j
    simp [zeroNotKeptGo, gd_nil]
  | cons a t ih =>
    intro keep k j
    cases j with
    | zero =>
      simp [zeroNotKeptGo, gd_cons_zero]
    | succ j' =>
      simp only [zeroNotKeptGo, gd_cons_succ]
      rw [ih keep (k + 1) j']
      have h : k + 1 + j' = k + (j' + 1) := by omega
      rw [h]

theorem length_zeroExcept (l : List Nat) (m : Nat) : (zeroExcept l m).length = l.length :=
  length_zeroNotKeptGo l _ 0

theorem sum_zeroExcept_le (l : List Nat) (m : Nat) : (zeroExcept l m).sum ≤ l.sum :=
  sum_zeroNotKeptGo_le l _ 0

theorem gd_zeroExcept (l : List Nat) (m j : Nat) :
    gd (zeroExcept l m) j = if j = m then gd l j else 0 := by
  unfold zeroExcept
  rw [gd_zeroNotKeptGo]
  simp

theorem length_zeroExceptTwo (l : List Nat) (a b : Nat) :
    (zeroExceptTwo l a b).length = l.length :=
  length_zeroNotKeptGo l _ 0

theorem sum_zeroExceptTwo_le (l : List Nat) (a b : Nat) :
    (zeroExceptTwo l a b).sum ≤ l.sum :=
  sum_zeroNotKeptGo_le l _ 0

theorem sum_zeroExcept_eq :
    ∀ (l : List Nat) (m : Nat), m < l.length → (zeroExcept l m).sum = gd l m := by
  intro l m hm
  -- sum over the kept single index
  induction l generalizing m with
  | nil => simp at hm
  | cons a t ih =>
    cases m with
    | zero =>
      show ((if (0 : Nat) = 0 then a else 0) :: zeroNotKeptGo _ 1 t).sum = a
      have hz : ∀ (t' : List Nat) (k : Nat), 0 < k →
          (zeroNotKeptGo (fun j => decide (j = 0)) k t').sum = 0 := by
        intro t'
        induction t' with
        | nil => intro k _; simp [zeroNotKeptGo]
        | cons x xs ihx =>
          intro k hk
          simp only [zeroNotKeptGo, List.sum_cons]
          rw [if_neg (by simp; omega), ihx (k + 1) (by omega)]
      simp [hz t 1 (by omega)]
    | succ m' =>
      have hsh : ∀ (t' : List Nat) (k m0 : Nat),
          zeroNotKeptGo (fun j => decide (j = m0 + 1)) (k + 1) t' =
          zeroNotKeptGo (fun j => decide (j = m0)) k t' := by
        intro t'
        induction t' with
        | nil => intro k m0; rfl
        | cons x xs ihx =>
          intro k m0
          simp only [zeroNotKeptGo]
          rw [ihx (k + 1) m0]
          by_cases h : k = m0
          · simp [h]
          · simp [h, show ¬(k + 1 = m0 + 1) from by omega]
      show ((if (0 : Nat) = m' + 1 then a else 0) ::
        zeroNotKeptGo (fun j => decide (j = m' + 1)) 1 t).sum = gd (a :: t) (m' + 1)
      rw [if_neg (by omega), hsh t 0 m', gd_cons_succ]
      have := ih m' (by simpa using hm)
      simpa [zeroExcept] using this

/-! ## Roll-phase lemmas -/

theorem rollIter_const (ω : Nat → Nat) :
    ∀ (k : Nat) (st : SimState),
      ((rollOnce ω)^[k] st).numDice = st.numDice ∧
      ((rollOnce ω)^[k] st).numSides = st.numSides ∧
      ((rollOnce ω)^[k] st).numToRoll = st.numToRoll ∧
      ((rollOnce ω)^[k] st).modeMemo = st.modeMemo ∧
      ((rollOnce ω)^[k] st).done = st.done ∧
      ((rollOnce ω)^[k] st).numSteps = st.numSteps ∧
      ((rollOnce ω)^[k] st).buckets.length = st.buckets.length := by
  intro k
  induction k with
  | zero => intro st; simp
  | succ n ih =>
    intro st
    rw [Function.iterate_succ_apply]
    have h := ih (rollOnce ω st)
    simpa [rollOnce, length_incAt] using h

theorem rollIter_sum_le (ω : Nat → Nat) :
    ∀ (k : Nat) (st : SimState),
      ((rollOnce ω)^[k] st).buckets.sum ≤ st.buckets.sum + k := by
  intro k
  induction k with
  | zero => intro st; simp
  | succ n ih =>
    intro st
    rw [Function.iterate_succ_apply]
    have h := ih (rollOnce ω st)
    have h2 : (rollOnce ω st).buckets.sum ≤ st.buckets.sum + 1 := by
      simpa [rollOnce] using sum_incAt_le st.buckets _
    omega

theorem rollIter_gd_ge (ω : Nat → Nat) :
    ∀ (k : Nat) (st : SimState) (j : Nat),
      gd st.buckets j ≤ gd ((rollOnce ω)^[k] st).buckets j := by
  intro k
  induction k with
  | zero => intro st j; simp
  | succ n ih =>
    intro st j
    rw [Function.iterate_succ_apply]
    have h1 : gd st.buckets j ≤ gd (rollOnce ω st).buckets j := by
      simpa [rollOnce] using gd_incAt_ge st.buckets _ j
    exact le_trans h1 (ih (rollOnce ω st) j)

theorem rollPhase_facts (ω : Nat → Nat) (st : SimState) :
    (rollPhase ω st).numDice = st.numDice ∧
    (rollPhase ω st).numSides = st.numSides ∧
    (rollPhase ω st).numToRoll = st.numToRoll ∧
    (rollPhase ω st).modeMemo = st.modeMemo ∧
    (rollPhase ω st).done = st.done ∧
    (rollPhase ω st).numSteps = st.numSteps ∧
    (rollPhase ω st).buckets.length = st.buckets.length ∧
    (rollPhase ω st).buckets.sum ≤ st.buckets.sum + st.numToRoll ∧
    (∀ j, gd st.buckets j ≤ gd (rollPhase ω st).buckets j) := by
  unfold rollPhase
  obtain ⟨h1, h2, h3, h4, h5, h6, h7⟩ := rollIter_const ω st.numToRoll st
  exact ⟨h1, h2, h3, h4, h5, h6, h7, rollIter_sum_le ω st.numToRoll st,
    fun j => rollIter_gd_ge ω st.numToRoll st j⟩

/-! ## The trial invariant (claim C10) -/

/-- Invariant carried by every strategy state of a trial with `S` sides and
`D` dice: the histogram holds at most `D` dice, and (off the `done` state)
the pending rolls exactly replenish it to `D`; the cached Naive mode, when
present, is a valid 1-based face. -/
def Inv (S D : Nat) (st : SimState) : Prop :=
  st.numSides = S ∧ st.numDice = D ∧ st.buckets.length = S ∧
  st.buckets.sum ≤ D ∧
  (st.done = false → st.buckets.sum + st.numToRoll ≤ D) ∧
  (∀ m, st.modeMemo = some m → 1 ≤ m ∧ m ≤ S)

theorem inv_init (S D : Nat) : Inv S D (SimState.init S D) := by
  refine ⟨rfl, rfl, by simp [SimState.init], ?_, ?_, ?_⟩
  · simp [SimState.init, List.sum_replicate]
  · intro _
    simp [SimState.init, List.sum_replicate]
  · intro m hm
    simp [SimState.init] at hm

theorem inv_finish (S D : Nat) (st1 : SimState) (b2 : List Nat) (c : Prop)
    [Decidable c] (v : Nat)
    (hNS : st1.numSides = S) (hND : st1.numDice = D) (hdone1 : st1.done = false)
    (hlen2 : b2.length = S) (hsum2 : b2.sum ≤ D) (hv : b2.sum + v ≤ D)
    (hmemo : ∀ m, st1.modeMemo = some m → 1 ≤ m ∧ m ≤ S) :
    Inv S D (if c
      then { st1 with buckets := b2, done := true, numSteps := st1.numSteps + 1 }
      else { st1 with buckets := b2, numToRoll := v, numSteps := st1.numSteps + 1 }) := by
  by_cases hc : c
  · rw [if_pos hc]
    exact ⟨hNS, hND, hlen2, hsum2, by intro h; simp at h, fun m hm => hmemo m hm⟩
  · rw [if_neg hc]
    exact ⟨hNS, hND, hlen2, hsum2, fun _ => hv, fun m hm => hmemo m hm⟩

theorem inv_naiveStep (S D : Nat) (ω : Nat → Nat) (st : SimState)
    (hS : 1 ≤ S) (hinv : Inv S D st) (hdone : st.done = false) :
    Inv S D (naiveStep ω st) := by
  obtain ⟨hNS, hND, hlen, hsum, hpend, hmemo⟩ := hinv
  obtain ⟨r1, r2, r3, r4, r5, r6, r7, r8, r9⟩ := rollPhase_facts ω st
  have hlen1 : (rollPhase ω st).buckets.length = S := by rw [r7, hlen]
  have hsum1 : (rollPhase ω st).buckets.sum ≤ D := by
    have := hpend hdone
    omega
  have hmode : 1 ≤ (rollPhase ω st).modeMemo.getD (modeFromCounts (rollPhase ω st).buckets) ∧
      (rollPhase ω st).modeMemo.getD (modeFromCounts (rollPhase ω st).buckets) ≤ S := by
    cases hm : (rollPhase ω st).modeMemo with
    | some m =>
      rw [r4] at hm
      simpa using hmemo m hm
    | none =>
      rw [Option.getD_none]
      have hne : (rollPhase ω st).buckets ≠ [] := by
        intro h
        rw [h] at hlen1
        simp at hlen1
        omega
      obtain ⟨hm1, hm2, _, _⟩ := modeFromCounts_spec (rollPhase ω st).buckets hne
      exact ⟨hm1, by omega⟩
  set mode := (rollPhase ω st).modeMemo.getD (modeFromCounts (rollPhase ω st).buckets)
    with hmodedef
  have hmb : mode - 1 < S := by omega
  have hsum2eq : (zeroExcept (rollPhase ω st).buckets (mode - 1)).sum =
      gd (rollPhase ω st).buckets (mode - 1) :=
    sum_zeroExcept_eq (rollPhase ω st).buckets (mode - 1) (by omega)
  have hgd2 : gd (zeroExcept (rollPhase ω st).buckets (mode - 1)) (mode - 1) =
      gd (rollPhase ω st).buckets (mode - 1) := by
    rw [gd_zeroExcept]
    simp
  have hgdle : gd (rollPhase ω st).buckets (mode - 1) ≤ D :=
    le_trans (gd_le_sum _ _) hsum1
  show Inv S D (naiveStep ω st)
  unfold naiveStep
  simp only [← hmodedef]
  apply inv_finish S D
    { rollPhase ω st with
        buckets := zeroExcept (rollPhase ω st).buckets (mode - 1)
        modeMemo := some mode }
    (zeroExcept (rollPhase ω st).buckets (mode - 1))
  · exact r2.trans hNS
  · exact r1.trans hND
  · rw [show ({ rollPhase ω st with
        buckets := zeroExcept (rollPhase ω st).buckets (mode - 1),
        modeMemo := some mode } : SimState).done = (rollPhase ω st).done from rfl, r5]
    exact hdone
  · rw [length_zeroExcept, hlen1]
  · rw [hsum2eq]
    exact hgdle
  · rw [hsum2eq]
    show gd (rollPhase ω st).buckets (mode - 1) +
      (({ rollPhase ω st with
            buckets := zeroExcept (rollPhase ω st).buckets (mode - 1),
            modeMemo := some mode } : SimState).numDice -
        gd (zeroExcept (rollPhase ω st).buckets (mode - 1)) (mode - 1)) ≤ D
    rw [hgd2]
    have hnd : ({ rollPhase ω st with
        buckets := zeroExcept (rollPhase ω st).buckets (mode - 1),
        modeMemo := some mode } : SimState).numDice = D := r1.trans hND
    rw [hnd]
    omega
  · intro m hm
    have : some mode = some m := hm
    have hmm : mode = m := by injection this
    omega

theorem pending_arith (x nd D : Nat) (hx : x ≤ D) (hnd : nd = D) : x + (nd - x) ≤ D := by
  omega

theorem inv_divideStep (S D : Nat) (ω : Nat → Nat) (st : SimState)
    (hS : 1 ≤ S) (hinv : Inv S D st) (hdone : st.done = false) :
    Inv S D (divideStep ω st) := by
  obtain ⟨hNS, hND, hlen, hsum, hpend, hmemo⟩ := hinv
  obtain ⟨r1, r2, r3, r4, r5, r6, r7, r8, r9⟩ := rollPhase_facts ω st
  have hsum1 : (rollPhase ω st).buckets.sum ≤ D := by
    have := hpend hdone
    omega
  simp only [divideStep]
  split <;> split <;>
    refine ⟨r2.trans hNS, r1.trans hND,
      (length_zeroExceptTwo _ _ _).trans (r7.trans hlen),
      le_trans (sum_zeroExceptTwo_le _ _ _) hsum1, ?_,
      fun m hm => hmemo m (r4.symm.trans hm)⟩
  · exact fun h => Bool.noConfusion h
  · exact fun _ => pending_arith _ _ _
      (le_trans (sum_zeroExceptTwo_le _ _ _) hsum1) (r1.trans hND)
  · exact fun h => Bool.noConfusion h
  · exact fun _ => pending_arith _ _ _
      (le_trans (sum_zeroExceptTwo_le _ _ _) hsum1) (r1.trans hND)

theorem inv_mergeStep (S D : Nat) (ω : Nat → Nat) (st : SimState)
    (hS : 1 ≤ S) (hinv : Inv S D st) (hdone : st.done = false) :
    Inv S D (mergeStep ω st) := by
  obtain ⟨hNS, hND, hlen, hsum, hpend, hmemo⟩ := hinv
  obtain ⟨r1, r2, r3, r4, r5, r6, r7, r8, r9⟩ := rollPhase_facts ω st
  have hsum1 : (rollPhase ω st).buckets.sum ≤ D := by
    have := hpend hdone
    omega
  simp only [mergeStep]
  split <;>
    refine ⟨r2.trans hNS, r1.trans hND,
      (length_foldl_set_zero _ _).trans (r7.trans hlen),
      le_trans (sum_foldl_set_zero_le _ _) hsum1, ?_,
      fun m hm => hmemo m (r4.symm.trans hm)⟩
  · exact fun h => Bool.noConfusion h
  · exact fun _ => pending_arith _ _ _
      (le_trans (sum_foldl_set_zero_le _ _) hsum1) (r1.trans hND)

theorem inv_guardedStep (strat : Strat) (S D : Nat) (ω : Nat → Nat) (st : SimState)
    (hS : 1 ≤ S) (hinv : Inv S D st) :
    Inv S D (guardedStep strat ω st) := by
  by_cases hd : st.done = true
  · unfold guardedStep
    rw [if_pos hd]
    exact hinv
  · have hdone : st.done = false := by
      cases h : st.done
      · rfl
      · exact absurd h hd
    unfold guardedStep
    rw [if_neg (by rw [hdone]; simp)]
    cases strat with
    | naive => exact inv_naiveStep S D ω st hS hinv hdone
    | divide => exact inv_divideStep S D ω st hS hinv hdone
    | merge => exact inv_mergeStep S D ω st hS hinv hdone

theorem inv_iter (strat : Strat) (S D : Nat) (ω : Nat → Nat) (hS : 1 ≤ S) :
    ∀ n, Inv S D (trialIter strat ω S D n) := by
  intro n
  induction n with
  | zero => exact inv_init S D
  | succ k ih =>
    rw [trialIter, Function.iterate_succ_apply']
    exact inv_guardedStep strat S D ω _ hS ih

/-- Claim C10: for each strategy, starting from the all-zero histogram with
`num_to_roll = D`, `sum(buckets) ≤ D` holds after every round of the trial
loop, and also after each individual die roll inside the next round's
`roll()` while the trial is not done. -/
theorem buckets_sum_le_dice (strat : Strat) (S D : Nat) (ω : Nat → Nat) (n : Nat)
    (hS : 1 ≤ S) :
    (trialIter strat ω S D n).buckets.sum ≤ D ∧
    ((trialIter strat ω S D n).done = false →
      ∀ j, j ≤ (trialIter strat ω S D n).numToRoll →
        ((rollOnce ω)^[j] (trialIter strat ω S D n)).buckets.sum ≤ D) := by
  obtain ⟨h1, h2, h3, h4, h5, h6⟩ := inv_iter strat S D ω hS n
  refine ⟨h4, ?_⟩
  intro hdone j hj
  have hroll := rollIter_sum_le ω j (trialIter strat ω S D n)
  have := h5 hdone
  omega

/-- Witness for C10 (Naive strategy, S = 2, D = 2, all-zero word stream,
after 3 rounds). -/
theorem buckets_sum_le_dice_witness :
    1 ≤ (2 : Nat) ∧ (trialIter .naive (fun _ => 0) 2 2 3).buckets.sum ≤ 2 :=
  ⟨by decide, (buckets_sum_le_dice .naive 2 2 (fun _ => 0) 3 (by decide)).1⟩

/-! ## One-face trials (claim C2) -/

theorem modeGo_replicate_zero :
    ∀ (k bi bc i : Nat), 1 ≤ bc → modeGo bi bc i (List.replicate k 0) = (bi, bc) := by
  intro k
  induction k with
  | zero => intro bi bc i _; rfl
  | succ n ih =>
    intro bi bc i h
    rw [List.replicate_succ]
    simp only [modeGo]
    rw [if_neg (by omega)]
    exact ih bi bc (i + 1) h

theorem topTwoGo_replicate_zero :
    ∀ (k f fi s si i : Nat), topTwoGo f fi s si i (List.replicate k 0) = (f, fi, s, si) := by
  intro k
  induction k with
  | zero => intro f fi s si i; rfl
  | succ n ih =>
    intro f fi s si i
    rw [List.replicate_succ]
    simp only [topTwoGo]
    rw [if_neg (Nat.not_lt_zero f), if_neg (Nat.not_lt_zero s)]
    exact ih f fi s si (i + 1)

theorem zeroNotKeptGo_replicate_zero :
    ∀ (n : Nat) (keep : Nat → Bool) (k : Nat),
      zeroNotKeptGo keep k (List.replicate n 0) = List.replicate n 0 := by
  intro n
  induction n with
  | zero => intro keep k; rfl
  | succ m ih =>
    intro keep k
    rw [List.replicate_succ]
    simp only [zeroNotKeptGo, ite_self]
    rw [ih keep (k + 1), ← List.replicate_succ]

theorem filter_pos_replicate_zero (n : Nat) :
    (List.replicate n 0).filter (fun v => decide (0 < v)) = [] := by
  induction n with
  | zero => rfl
  | succ m ih =>
    rw [List.replicate_succ, List.filter_cons]
    simp [ih]

theorem modeFromCounts_head (D S' : Nat) (hD : 1 ≤ D) :
    modeFromCounts (D :: List.replicate S' 0) = 1 := by
  show (modeGo 0 D 1 (List.replicate S' 0)).1 + 1 = 1
  rw [modeGo_replicate_zero S' 0 D 1 hD]

theorem zeroExcept_head (D S' : Nat) :
    zeroExcept (D :: List.replicate S' 0) 0 = D :: List.replicate S' 0 := by
  show ((if (0 : Nat) = 0 then D else 0) ::
    zeroNotKeptGo (fun k => decide (k = 0)) 1 (List.replicate S' 0)) = _
  rw [if_pos rfl, zeroNotKeptGo_replicate_zero]

theorem topTwo_head (D S' : Nat) :
    topTwoModesFromCounts (D :: List.replicate S' 0) = (1, 1) := by
  show ((topTwoGo D 0 0 0 1 (List.replicate S' 0)).2.1 + 1,
    (topTwoGo D 0 0 0 1 (List.replicate S' 0)).2.2.2 + 1) = (1, 1)
  rw [topTwoGo_replicate_zero]

theorem zeroExceptTwo_head (D S' : Nat) :
    zeroExceptTwo (D :: List.replicate S' 0) 0 0 = D :: List.replicate S' 0 := by
  show ((if (0 : Nat) = 0 ∨ (0 : Nat) = 0 then D else 0) ::
    zeroNotKeptGo (fun k => decide (k = 0 ∨ k = 0)) 1 (List.replicate S' 0)) = _
  rw [if_pos (Or.inl rfl), zeroNotKeptGo_replicate_zero]

theorem antiModes_head (D S' : Nat) (hD : 1 ≤ D) :
    antiModes (D :: List.replicate S' 0) = [] := by
  apply antiModes_eq_nil
  rw [List.filter_cons]
  simp only [decide_eq_true_eq]
  rw [if_pos (by omega), filter_pos_replicate_zero]
  simp

theorem sum_head (D S' : Nat) : (D :: List.replicate S' 0).sum = D := by
  simp [List.sum_replicate]

theorem rollIter_face1 (ω : Nat → Nat) :
    ∀ (k : Nat) (st : SimState) (b : Nat) (t : List Nat),
      (∀ n, rollFace st.numSides (ω n) = 1) →
      st.buckets = b :: t →
      ((rollOnce ω)^[k] st).buckets = (b + k) :: t ∧
      ((rollOnce ω)^[k] st).numRolls = st.numRolls + k := by
  intro k
  induction k with
  | zero =>
    intro st b t _ hb
    constructor
    · simpa using hb
    · simp
  | succ n ih =>
    intro st b t hface hb
    rw [Function.iterate_succ_apply]
    have hface1 : rollFace st.numSides (ω st.cursor) = 1 := hface st.cursor
    have hb1 : (rollOnce ω st).buckets = (b + 1) :: t := by
      show incAt st.buckets (rollFace st.numSides (ω st.cursor) - 1) = (b + 1) :: t
      rw [hface1, hb]
      show incAt (b :: t) 0 = (b + 1) :: t
      simp [incAt, List.set, gd_cons_zero]
    have hface' : ∀ n, rollFace (rollOnce ω st).numSides (ω n) = 1 := by
      intro n
      show rollFace st.numSides (ω n) = 1
      exact hface n
    obtain ⟨hib, hir⟩ := ih (rollOnce ω st) (b + 1) t hface' hb1
    constructor
    · rw [hib]
      congr 1
      omega
    · rw [hir]
      show (rollOnce ω st).numRolls + n = st.numRolls + (n + 1)
      have : (rollOnce ω st).numRolls = st.numRolls + 1 := rfl
      omega

/-- A trial whose every roll lands on face 1 finishes in one round with `D`
rolls, under each of the three strategies. -/
theorem oneface_first_step (strat : Strat) (S D : Nat) (ω : Nat → Nat)
    (hS : 1 ≤ S) (hD : 1 ≤ D) (hface : ∀ n, rollFace S (ω n) = 1) :
    (trialIter strat ω S D 1).done = true ∧
    (trialIter strat ω S D 1).numRolls = D ∧
    (trialIter strat ω S D 1).numSteps = 1 := by
  have h0 : trialIter strat ω S D 1 = stepOf strat ω (SimState.init S D) := by
    rw [trialIter, Function.iterate_one]
    unfold guardedStep
    rw [if_neg (by simp [SimState.init])]
  obtain ⟨S', hS'⟩ : ∃ S', S = S' + 1 := ⟨S - 1, by omega⟩
  have hbuck : (SimState.init S D).buckets = 0 :: List.replicate S' 0 := by
    simp [SimState.init, hS', List.replicate_succ]
  have hfaceInit : ∀ n, rollFace (SimState.init S D).numSides (ω n) = 1 := hface
  obtain ⟨hrb, hrr⟩ :=
    rollIter_face1 ω D (SimState.init S D) 0 (List.replicate S' 0) hfaceInit hbuck
  obtain ⟨c1, c2, c3, c4, c5, c6, c7⟩ := rollIter_const ω D (SimState.init S D)
  have hrp : rollPhase ω (SimState.init S D) = (rollOnce ω)^[D] (SimState.init S D) := rfl
  have hb : (rollPhase ω (SimState.init S D)).buckets = D :: List.replicate S' 0 := by
    rw [hrp, hrb]
    congr 1
    omega
  have hm : (rollPhase ω (SimState.init S D)).modeMemo = none := by rw [hrp, c4]; rfl
  have hnd : (rollPhase ω (SimState.init S D)).numDice = D := by rw [hrp, c1]; rfl
  have hns : (rollPhase ω (SimState.init S D)).numSteps = 0 := by rw [hrp, c6]; rfl
  have hnr : (rollPhase ω (SimState.init S D)).numRolls = D := by
    rw [hrp, hrr]
    show 0 + D = D
    omega
  rw [h0]
  cases strat with
  | naive =>
    show (naiveStep ω (SimState.init S D)).done = true ∧
      (naiveStep ω (SimState.init S D)).numRolls = D ∧
      (naiveStep ω (SimState.init S D)).numSteps = 1
    simp only [naiveStep]
    rw [hb, hm]
    rw [Option.getD_none, modeFromCounts_head D S' hD]
    simp only [Nat.sub_self, zeroExcept_head, gd_cons_zero, hnd]
    simp only [if_true, eq_self_iff_true]
    refine ⟨trivial, ?_, ?_⟩
    · show (rollPhase ω (SimState.init S D)).numRolls = D
      exact hnr
    · show (rollPhase ω (SimState.init S D)).numSteps + 1 = 1
      rw [hns]
  | divide =>
    show (divideStep ω (SimState.init S D)).done = true ∧
      (divideStep ω (SimState.init S D)).numRolls = D ∧
      (divideStep ω (SimState.init S D)).numSteps = 1
    simp only [divideStep]
    rw [hb, topTwo_head D S']
    simp only [Nat.sub_self, gd_cons_zero, hnd]
    rw [if_pos (Nat.div_le_self D 2)]
    simp only [zeroExceptTwo_head, sum_head]
    simp only [if_true, eq_self_iff_true]
    refine ⟨trivial, ?_, ?_⟩
    · show (rollPhase ω (SimState.init S D)).numRolls = D
      exact hnr
    · show (rollPhase ω (SimState.init S D)).numSteps + 1 = 1
      rw [hns]
  | merge =>
    show (mergeStep ω (SimState.init S D)).done = true ∧
      (mergeStep ω (SimState.init S D)).numRolls = D ∧
      (mergeStep ω (SimState.init S D)).numSteps = 1
    simp only [mergeStep]
    rw [hb, antiModes_head D S' hD]
    simp only [List.foldl_nil, sum_head, hnd]
    simp only [if_true, eq_self_iff_true]
    refine ⟨trivial, ?_, ?_⟩
    · show (rollPhase ω (SimState.init S D)).numRolls = D
      exact hnr
    · show (rollPhase ω (SimState.init S D)).numSteps + 1 = 1
      rw [hns]

/-- Claim C2 (amended): for `S = 1`, every trial of every strategy completes
in exactly 1 round with `num_rolls = D` and `num_steps = 1`, for every die
stream; and for every `S ≥ 1`, `D ≥ 1` there EXISTS a die-outcome stream
(all words 0, i.e. every die shows face 1) under which every strategy
completes in 1 round with `num_rolls = D`.  (Completion for EVERY outcome
stream is refuted by `trial_nontermination`.) -/
theorem trial_completion_amended :
    (∀ (strat : Strat) (D : Nat) (ω : Nat → Nat), 1 ≤ D →
      (trialIter strat ω 1 D 1).done = true ∧
      (trialIter strat ω 1 D 1).numRolls = D ∧
      (trialIter strat ω 1 D 1).numSteps = 1) ∧
    (∀ (strat : Strat) (S D : Nat), 1 ≤ S → 1 ≤ D →
      (trialIter strat (fun _ => 0) S D 1).done = true ∧
      (trialIter strat (fun _ => 0) S D 1).numRolls = D ∧
      (trialIter strat (fun _ => 0) S D 1).numSteps = 1) := by
  constructor
  · intro strat D ω hD
    apply oneface_first_step strat 1 D ω (by omega) hD
    intro n
    show 1 + ω n % 1 = 1
    simp [Nat.mod_one]
  · intro strat S D hS hD
    apply oneface_first_step strat S D (fun _ => 0) hS hD
    intro n
    show 1 + 0 % S = 1
    simp

/-- Witness for the amended C2 (Merge strategy, S = 1, D = 3, an arbitrary
word stream). -/
theorem trial_completion_amended_witness :
    1 ≤ (3 : Nat) ∧ (trialIter .merge (fun n => n * n + 5) 1 3 1).done = true :=
  ⟨by decide,
    (trial_completion_amended.1 .merge 3 (fun n => n * n + 5) (by decide)).1⟩

/-- A word stream whose second word is 1 and every other word is 0: the
first Naive round locks face 2, and every re-rolled die thereafter shows
face 1 and is zeroed again. -/
def stuckOracle : Nat → Nat := fun n => if n = 1 then 1 else 0

/-- The stationary description of the stuck Naive trial (S = 2, D = 2). -/
def StuckInv (st : SimState) : Prop :=
  st.done = false ∧ st.buckets = [0, 1] ∧ st.numToRoll = 1 ∧
  st.modeMemo = some 2 ∧ st.numSides = 2 ∧ st.numDice = 2 ∧ 2 ≤ st.cursor

theorem stuck_step (st : SimState) (h : StuckInv st) :
    StuckInv (guardedStep .naive stuckOracle st) := by
  obtain ⟨hdone, hb, hntr, hm, hns, hnd, hc⟩ := h
  unfold guardedStep
  rw [if_neg (by rw [hdone]; simp)]
  show StuckInv (naiveStep stuckOracle st)
  have hface : rollFace st.numSides (stuckOracle st.cursor) = 1 := by
    show 1 + stuckOracle st.cursor % st.numSides = 1
    unfold stuckOracle
    rw [if_neg (by omega), hns]
  have hrp : rollPhase stuckOracle st = rollOnce stuckOracle st := by
    unfold rollPhase
    rw [hntr, Function.iterate_one]
  have hb1 : (rollOnce stuckOracle st).buckets = [1, 1] := by
    show incAt st.buckets (rollFace st.numSides (stuckOracle st.cursor) - 1) = [1, 1]
    rw [hface, hb]
    rfl
  have hm1 : (rollOnce stuckOracle st).modeMemo = some 2 := hm
  have hnd1 : (rollOnce stuckOracle st).numDice = 2 := hnd
  have hns1 : (rollOnce stuckOracle st).numSides = 2 := hns
  have hdone1 : (rollOnce stuckOracle st).done = false := hdone
  have hc1 : (rollOnce stuckOracle st).cursor = st.cursor + 1 := rfl
  simp only [naiveStep, hrp, hb1, hm1, Option.getD_some]
  have hz : zeroExcept [1, 1] (2 - 1) = [0, 1] := by decide
  rw [hz]
  have hgd : gd [0, 1] (2 - 1) = 1 := by decide
  rw [hgd, hnd1]
  rw [if_neg (by omega)]
  refine ⟨hdone1, rfl, rfl, rfl, hns1, rfl, ?_⟩
  show 2 ≤ st.cursor + 1
  omega

theorem stuck_all (n : Nat) :
    StuckInv (trialIter .naive stuckOracle 2 2 (n + 1)) := by
  induction n with
  | zero =>
    show StuckInv (trialIter .naive stuckOracle 2 2 1)
    simp only [StuckInv]
    refine ⟨?_, ?_, ?_, ?_, ?_, ?_, ?_⟩ <;> decide
  | succ k ih =>
    rw [trialIter, Function.iterate_succ_apply']
    exact stuck_step _ ih

/-- Claim C2 (counterexample): with `S = 2`, `D = 2` and the Naive strategy
there is a die-outcome stream under which the trial NEVER reaches `done`:
the first round rolls faces (1, 2) and locks face 2, and the single
re-rolled die shows face 1 forever. -/
theorem trial_nontermination :
    ¬ ∃ n, (trialIter .naive stuckOracle 2 2 n).done = true := by
  rintro ⟨n, hn⟩
  cases n with
  | zero =>
    have : (trialIter .naive stuckOracle 2 2 0).done = false := by decide
    rw [hn] at this
    exact Bool.noConfusion this
  | succ k =>
    have := (stuck_all k).1
    rw [hn] at this
    exact Bool.noConfusion this

/-! ## Surviving bucket mass (claim C3) -/

/-- After a Naive step, all surviving mass sits in the cached mode bucket. -/
def NaiveConc (st : SimState) : Prop :=
  ∃ m, st.modeMemo = some m ∧ m - 1 < st.buckets.length ∧
    st.buckets.sum = gd st.buckets (m - 1)

theorem naiveStep_conc (S D : Nat) (ω : Nat → Nat) (st : SimState)
    (hS : 1 ≤ S) (hinv : Inv S D st) :
    NaiveConc (naiveStep ω st) := by
  obtain ⟨hNS, hND, hlen, hsum, hpend, hmemo⟩ := hinv
  obtain ⟨r1, r2, r3, r4, r5, r6, r7, r8, r9⟩ := rollPhase_facts ω st
  have hlen1 : (rollPhase ω st).buckets.length = S := r7.trans hlen
  have hmode : 1 ≤ (rollPhase ω st).modeMemo.getD (modeFromCounts (rollPhase ω st).buckets) ∧
      (rollPhase ω st).modeMemo.getD (modeFromCounts (rollPhase ω st).buckets) ≤ S := by
    cases hm : (rollPhase ω st).modeMemo with
    | some m =>
      rw [r4] at hm
      simpa using hmemo m hm
    | none =>
      rw [Option.getD_none]
      have hne : (rollPhase ω st).buckets ≠ [] := by
        intro h
        rw [h] at hlen1
        simp at hlen1
        omega
      obtain ⟨hm1, hm2, _, _⟩ := modeFromCounts_spec (rollPhase ω st).buckets hne
      exact ⟨hm1, by omega⟩
  set mode := (rollPhase ω st).modeMemo.getD (modeFromCounts (rollPhase ω st).buckets)
    with hmodedef
  unfold naiveStep
  simp only [← hmodedef]
  split
  · refine ⟨mode, rfl, ?_, ?_⟩
    · show mode - 1 < (zeroExcept (rollPhase ω st).buckets (mode - 1)).length
      rw [length_zeroExcept, hlen1]
      omega
    · show (zeroExcept (rollPhase ω st).buckets (mode - 1)).sum =
        gd (zeroExcept (rollPhase ω st).buckets (mode - 1)) (mode - 1)
      rw [sum_zeroExcept_eq _ _ (by rw [hlen1]; omega), gd_zeroExcept]
      simp
  · refine ⟨mode, rfl, ?_, ?_⟩
    · show mode - 1 < (zeroExcept (rollPhase ω st).buckets (mode - 1)).length
      rw [length_zeroExcept, hlen1]
      omega
    · show (zeroExcept (rollPhase ω st).buckets (mode - 1)).sum =
        gd (zeroExcept (rollPhase ω st).buckets (mode - 1)) (mode - 1)
      rw [sum_zeroExcept_eq _ _ (by rw [hlen1]; omega), gd_zeroExcept]
      simp

theorem naiveStep_sum_mono (ω : Nat → Nat) (st : SimState) (hconc : NaiveConc st) :
    st.buckets.sum ≤ (naiveStep ω st).buckets.sum := by
  obtain ⟨m, hm, hmlt, hsum⟩ := hconc
  obtain ⟨r1, r2, r3, r4, r5, r6, r7, r8, r9⟩ := rollPhase_facts ω st
  have hmode : (rollPhase ω st).modeMemo.getD (modeFromCounts (rollPhase ω st).buckets) = m := by
    rw [r4, hm]
    rfl
  have hmlt1 : m - 1 < (rollPhase ω st).buckets.length := by
    rw [r7]
    exact hmlt
  unfold naiveStep
  simp only [hmode]
  split
  · show st.buckets.sum ≤ (zeroExcept (rollPhase ω st).buckets (m - 1)).sum
    rw [sum_zeroExcept_eq _ _ hmlt1, hsum]
    exact r9 (m - 1)
  · show st.buckets.sum ≤ (zeroExcept (rollPhase ω st).buckets (m - 1)).sum
    rw [sum_zeroExcept_eq _ _ hmlt1, hsum]
    exact r9 (m - 1)

theorem naive_conc_iter (S D : Nat) (ω : Nat → Nat) (hS : 1 ≤ S) :
    ∀ n, NaiveConc (trialIter .naive ω S D (n + 1)) := by
  intro n
  induction n with
  | zero =>
    show NaiveConc (trialIter .naive ω S D 1)
    rw [trialIter, Function.iterate_one]
    unfold guardedStep
    rw [if_neg (by simp [SimState.init])]
    exact naiveStep_conc S D ω _ hS (inv_init S D)
  | succ k ih =>
    rw [trialIter, Function.iterate_succ_apply']
    show NaiveConc (guardedStep .naive ω (trialIter .naive ω S D (k + 1)))
    unfold guardedStep
    by_cases hd : (trialIter .naive ω S D (k + 1)).done = true
    · rw [if_pos hd]
      exact ih
    · rw [if_neg hd]
      exact naiveStep_conc S D ω _ hS (inv_iter .naive S D ω hS (k + 1))

/-- Claim C3 (amended): for the Naive strategy the surviving bucket mass is
non-decreasing round over round, for every die stream (for Divide and Merge
it can decrease, see `surviving_mass_decreases`). -/
theorem naive_sum_monotone (S D : Nat) (ω : Nat → Nat) (n : Nat) (hS : 1 ≤ S) :
    (trialIter .naive ω S D n).buckets.sum ≤
    (trialIter .naive ω S D (n + 1)).buckets.sum := by
  cases n with
  | zero =>
    have h0 : (trialIter .naive ω S D 0).buckets.sum = 0 := by
      show (SimState.init S D).buckets.sum = 0
      simp [SimState.init, List.sum_replicate]
    rw [h0]
    exact Nat.zero_le _
  | succ k =>
    have hconc := naive_conc_iter S D ω hS k
    conv_rhs => rw [trialIter, Function.iterate_succ_apply']
    show (trialIter .naive ω S D (k + 1)).buckets.sum ≤
      (guardedStep .naive ω (trialIter .naive ω S D (k + 1))).buckets.sum
    unfold guardedStep
    by_cases hd : (trialIter .naive ω S D (k + 1)).done = true
    · rw [if_pos hd]
    · rw [if_neg hd]
      exact naiveStep_sum_mono ω _ hconc

/-- Witness for the amended C3 (Naive, S = 2, D = 2, all-zero word stream,
round 1 to round 2). -/
theorem naive_sum_monotone_witness :
    1 ≤ (2 : Nat) ∧
    (trialIter .naive (fun _ => 0) 2 2 1).buckets.sum ≤
      (trialIter .naive (fun _ => 0) 2 2 2).buckets.sum :=
  ⟨by decide, naive_sum_monotone 2 2 (fun _ => 0) 1 (by decide)⟩

/-- Die stream for a Divide trial (S = 5, D = 7): round 1 shows faces
(1,1,2,2,3,4,5), round 2 shows (1,3,3). -/
def divideDecOracle : Nat → Nat := fun n => [0,0,1,1,2,3,4,0,2,2].getD n 0

/-- Die stream for a Merge trial (S = 3, D = 5): round 1 shows faces
(1,1,2,2,3), round 2 shows (1). -/
def mergeDecOracle : Nat → Nat := fun n => [0,0,1,1,2,0].getD n 0

/-- Claim C3 (counterexample): for the Divide and Merge strategies the
surviving bucket mass `sum(buckets)` can strictly DECREASE between two
consecutive rounds of a trial that is not yet done.  Divide (S = 5, D = 7):
round 1 keeps buckets (2,2) — mass 4; round 2 collapses to one bucket of
mass 3.  Merge (S = 3, D = 5): round 1 keeps (2,2) — mass 4; round 2 zeroes
a previously kept bucket, leaving mass 3. -/
theorem surviving_mass_decreases :
    ((trialIter .divide divideDecOracle 5 7 1).done = false ∧
     (trialIter .divide divideDecOracle 5 7 2).done = false ∧
     (trialIter .divide divideDecOracle 5 7 2).buckets.sum <
       (trialIter .divide divideDecOracle 5 7 1).buckets.sum) ∧
    ((trialIter .merge mergeDecOracle 3 5 1).done = false ∧
     (trialIter .merge mergeDecOracle 3 5 2).done = false ∧
     (trialIter .merge mergeDecOracle 3 5 2).buckets.sum <
       (trialIter .merge mergeDecOracle 3 5 1).buckets.sum) := by
  decide

/-! ## `main.rs`: `monte_carlo` (claims C4, C5, C6) -/

/-- Claim C4: in `main.rs`, every `monte_carlo` call with the Divide or
Merge strategy kind panics via `unimplemented!()` at the first trial's first
`done()` check (for every `num_sides ≥ 1`, `num_dice ≥ 1`,
`num_simulations ≥ 1` — the Divide/Merge `SimulationType` variants are unit
structs carrying no parameters) and never returns a `MonteCarloOutput`;
only the Naive kind can complete a simulation (concrete instance:
S = 1, D = 1, one trial). -/
theorem mainSim_divide_panics (g : Nat → Nat) (fuel : Nat) :
    mainSim g .divide fuel = .error .unimplementedPanic := by
  cases fuel <;> rfl

theorem mainSim_merge_panics (g : Nat → Nat) (fuel : Nat) :
    mainSim g .merge fuel = .error .unimplementedPanic := by
  cases fuel <;> rfl

theorem monte_carlo_totals_closed (ω : Nat → Nat → Nat) (strat : MainSimType)
    (fuel : Nat) (r s : Nat → Nat) :
    ∀ numSims,
      (∀ i, i < numSims → mainSim (ω i) strat fuel = .ok (r i, s i)) →
      mainMonteCarloTotals ω strat numSims fuel =
        .ok (((List.range numSims).map r).sum,
             ((List.range numSims).map (fun i => r i * r i)).sum) := by
  intro numSims
  induction numSims with
  | zero => intro _; rfl
  | succ n ih =>
    intro h
    have hfold := ih (fun i hi => h i (by omega))
    unfold mainMonteCarloTotals at hfold ⊢
    rw [List.range_succ, List.foldlM_append, hfold]
    simp only [List.foldlM_cons, List.foldlM_nil, bind_pure]
    show (mainSim (ω n) strat fuel >>= fun res =>
      (pure (((List.range n).map r).sum + res.1,
        ((List.range n).map (fun i => r i * r i)).sum + res.1 * res.1) :
        Except RunError (Nat × Nat))) = _
    rw [h n (by omega)]
    show Except.ok _ = Except.ok _
    simp

theorem monte_carlo_output_closed (ω : Nat → Nat → Nat) (strat : MainSimType)
    (fuel numSims : Nat) (r s : Nat → Nat)
    (h : ∀ i, i < numSims → mainSim (ω i) strat fuel = .ok (r i, s i))
    (hn : 1 ≤ numSims) :
    mainMonteCarlo ω strat numSims fuel = .ok
      { average := ((((List.range numSims).map r).sum : Nat) : ℚ) / (numSims : ℚ)
        variance :=
          ((((List.range numSims).map (fun i => r i * r i)).sum : Nat) : ℚ) / (numSims : ℚ) -
            (((((List.range numSims).map r).sum : Nat) : ℚ) / (numSims : ℚ)) *
              (((((List.range numSims).map r).sum : Nat) : ℚ) / (numSims : ℚ)) } := by
  unfold mainMonteCarlo
  rw [monte_carlo_totals_closed ω strat fuel r s numSims h]
  rfl

/-- Claim C4: in `main.rs`, every `monte_carlo` call with the Divide or
Merge strategy kind panics via `unimplemented!()` at the first trial's first
`done()` check (for every `num_sides ≥ 1`, `num_dice ≥ 1`,
`num_simulations ≥ 1` — the Divide/Merge `SimulationType` variants are unit
structs carrying no parameters) and never returns a `MonteCarloOutput`;
only the Naive kind can complete a simulation (concrete instance:
S = 1, D = 1, one trial returning an output). -/
theorem monte_carlo_divide_merge_panics :
    (∀ (numSides numDice numSims fuel : Nat) (ω : Nat → Nat → Nat),
      1 ≤ numSides → 1 ≤ numDice → 1 ≤ numSims →
      mainMonteCarlo ω .divide numSims fuel = .error .unimplementedPanic ∧
      mainMonteCarlo ω .merge numSims fuel = .error .unimplementedPanic) ∧
    (∃ out, mainMonteCarlo (fun _ _ => 0) (.naive (MainNaiveState.init 1 1)) 1 1 =
      .ok out) := by
  constructor
  · intro numSides numDice n fuel ω _ _ hn
    obtain ⟨n', rfl⟩ : ∃ n', n = n' + 1 := ⟨n - 1, by omega⟩
    constructor
    · unfold mainMonteCarlo mainMonteCarloTotals
      rw [List.range_succ_eq_map, List.foldlM_cons, mainSim_divide_panics]
      rfl
    · unfold mainMonteCarlo mainMonteCarloTotals
      rw [List.range_succ_eq_map, List.foldlM_cons, mainSim_merge_panics]
      rfl
  · exact ⟨_, monte_carlo_output_closed (fun _ _ => 0)
      (.naive (MainNaiveState.init 1 1)) 1 1 (fun _ => 1) (fun _ => 1)
      (fun i hi => by
        have : i = 0 := by omega
        subst this
        rfl)
      (by decide)⟩

/-- Witness for C4 at `num_sides = num_dice = num_simulations = 1`. -/
theorem monte_carlo_divide_merge_panics_witness :
    1 ≤ (1 : Nat) ∧
    mainMonteCarlo (fun _ _ => 0) MainSimType.divide 1 5 =
      .error .unimplementedPanic :=
  ⟨by decide,
    (monte_carlo_divide_merge_panics.1 1 1 1 5 (fun _ _ => 0)
      (by decide) (by decide) (by decide)).1⟩

/-- Claim C5 (amended): `monte_carlo` accumulates, for each trial, the TWO
quantities (rolls, rolls²) into two running totals (modelled as a sequential
fold; the source uses relaxed atomic `fetch_add` from parallel trials and
reads the totals only after the join), and returns an output containing
only `average = total_rolls / N`, `std_dev = sqrt(total_sq / N − average²)`
(the model carries the variance; the square root and the wall-clock
`duration` are outside the embedding).  No steps statistics are accumulated
or returned. -/
theorem monte_carlo_aggregates_rolls (ω : Nat → Nat → Nat) (strat : MainSimType)
    (fuel numSims : Nat) (r s : Nat → Nat)
    (h : ∀ i, i < numSims → mainSim (ω i) strat fuel = .ok (r i, s i))
    (hn : 1 ≤ numSims) :
    mainMonteCarlo ω strat numSims fuel = .ok
      { average := ((((List.range numSims).map r).sum : Nat) : ℚ) / (numSims : ℚ)
        variance :=
          ((((List.range numSims).map (fun i => r i * r i)).sum : Nat) : ℚ) / (numSims : ℚ) -
            (((((List.range numSims).map r).sum : Nat) : ℚ) / (numSims : ℚ)) *
              (((((List.range numSims).map r).sum : Nat) : ℚ) / (numSims : ℚ)) } :=
  monte_carlo_output_closed ω strat fuel numSims r s h hn

/-- Witness for the amended C5: one Naive trial (S = 2, D = 3, all face-1
rolls) with 3 rolls. -/
theorem monte_carlo_aggregates_rolls_witness :
    mainMonteCarlo (fun _ _ => 0) (.naive (MainNaiveState.init 2 3)) 1 5 = .ok
      { average := ((((List.range 1).map (fun _ => 3)).sum : Nat) : ℚ) / ((1 : Nat) : ℚ)
        variance :=
          ((((List.range 1).map (fun i => (fun _ => 3) i * (fun _ => 3) i)).sum : Nat) : ℚ) /
              ((1 : Nat) : ℚ) -
            (((((List.range 1).map (fun _ => 3)).sum : Nat) : ℚ) / ((1 : Nat) : ℚ)) *
              (((((List.range 1).map (fun _ => 3)).sum : Nat) : ℚ) / ((1 : Nat) : ℚ)) } :=
  monte_carlo_aggregates_rolls (fun _ _ => 0) (.naive (MainNaiveState.init 2 3)) 5 1
    (fun _ => 3) (fun _ => 1)
    (fun i hi => by
      have : i = 0 := by omega
      subst this
      rfl)
    (by decide)

/-- Claim C5 (counterexample): two `monte_carlo` runs whose single trials
take the SAME number of rolls (3) but a DIFFERENT number of rounds (1 vs 2)
produce IDENTICAL outputs — the output carries no steps statistics, so it
cannot contain the claimed `average_steps`/`std_dev_steps`. -/
theorem monte_carlo_ignores_steps :
    mainMonteCarlo (fun _ _ => 0) (.naive (MainNaiveState.init 2 3)) 1 5 =
      mainMonteCarlo (fun _ n => if n = 1 then 1 else 0)
        (.naive (MainNaiveState.init 2 2)) 1 5 ∧
    mainSim (fun _ => 0) (.naive (MainNaiveState.init 2 3)) 5 = .ok (3, 1) ∧
    mainSim (fun n => if n = 1 then 1 else 0) (.naive (MainNaiveState.init 2 2)) 5 =
      .ok (3, 2) := by
  refine ⟨?_, rfl, rfl⟩
  rw [monte_carlo_output_closed (fun _ _ => 0) (.naive (MainNaiveState.init 2 3)) 5 1
      (fun _ => 3) (fun _ => 1)
      (fun i hi => by
        have : i = 0 := by omega
        subst this
        rfl)
      (by decide),
    monte_carlo_output_closed (fun _ n => if n = 1 then 1 else 0)
      (.naive (MainNaiveState.init 2 2)) 5 1
      (fun _ => 3) (fun _ => 2)
      (fun i hi => by
        have : i = 0 := by omega
        subst this
        rfl)
      (by decide)]

/-- Claim C6: evaluating the unclamped variance expression of `monte_carlo`
(`total_sq / N − average²`, with no `max(0, ·)` guard before `.sqrt()`) at
the failing totals in exact rational arithmetic: the true variance of three
trials with (54794514, 54794514, 54794515) rolls is 2/9 ≥ 0, so the negative
f64 value (−0.5, whose square root is NaN) the binary computes there is pure
floating-point rounding — which the clamp mandated by the spec would have
absorbed, and nothing in the code does. -/
theorem variance_exact_at_failing_totals :
    mainVarianceOfTotals (54794514 + 54794514 + 54794515)
      (54794514 * 54794514 + 54794514 * 54794514 + 54794515 * 54794515) 3 =
      2 / 9 ∧ (0 : ℚ) ≤ 2 / 9 := by
  constructor
  · unfold mainVarianceOfTotals
    norm_num
  · norm_num

end TenziSim
